import Mathlib

/-!
# Tic-tac-toe with minimax: a shallow embedding of `main.go`

The Go program keeps one mutable `Game` value (a 3x3 board of `int`, the player
to move and a game-over flag).  Every method of `Game` is embedded here as a
function on an explicit `Game` value; methods that write to the receiver return
the new `Game`.  The recursive search `minimax` is embedded with an explicit
recursion budget (`minimaxFuel`), and is shown to return whenever the budget
exceeds the number of empty cells.

Rendering (`Draw`, `drawCircle`, `Layout`, `main`) is outside the embedding.
-/

namespace TicTacToe

/-! ## Constants (`main.go`, lines 13-26) -/

/-- Screen width in pixels. -/
def screenWidth : Int := 300

/-- Screen height in pixels. -/
def screenHeight : Int := 300

/-- Number of board rows. -/
def boardRows : Nat := 3

/-- Number of board columns. -/
def boardCols : Nat := 3

/-- Side of one square in pixels: `screenWidth / boardCols` (Go integer division). -/
def squareSize : Int := Int.tdiv screenWidth boardCols

/-! ## Machine integers -/

/-- Wrap an integer into the range of Go's 64-bit `int` (two's complement). -/
def wrap64 (x : Int) : Int := (x + 2 ^ 63) % 2 ^ 64 - 2 ^ 63

/-! ## Scores

`minimax` returns a `float64`.  The program builds scores only from
`math.Inf(1)`, `math.Inf(-1)` and the constant 0 and combines them only with
`math.Max`, `math.Min` and `>`; it performs no arithmetic on them, so neither
NaN nor rounding can arise.  The values are modelled as the integers extended
with the two infinities, with the usual order. -/

/-- A `float64` score: minus infinity, a finite value, or plus infinity. -/
inductive Score where
  | negInf : Score
  | fin (n : Int) : Score
  | posInf : Score
deriving DecidableEq

namespace Score

/-- Strict order on scores: `lt x y` is Go's `y > x`. -/
def lt : Score → Score → Bool
  | negInf, negInf => false
  | negInf, _ => true
  | fin _, negInf => false
  | fin a, fin b => decide (a < b)
  | fin _, posInf => true
  | posInf, _ => false

/-- Non-strict order on scores. -/
def le (x y : Score) : Bool := !(lt y x)

/-- Go's `math.Max(x, y)`. -/
def max (x y : Score) : Score := if lt x y then y else x

/-- Go's `math.Min(x, y)`. -/
def min (x y : Score) : Score := if lt y x then y else x

end Score

/-! ## The board -/

/-- The array `[boardRows][boardCols]int`, stored row by row: field `cRC` is
`board[R][C]`. -/
structure Board where
  c00 : Int
  c01 : Int
  c02 : Int
  c10 : Int
  c11 : Int
  c12 : Int
  c20 : Int
  c21 : Int
  c22 : Int
deriving DecidableEq

namespace Board

/-- The zero value of the array: every cell is 0 (Empty). -/
def empty : Board := ⟨0, 0, 0, 0, 0, 0, 0, 0, 0⟩

/-- Read `board[row][col]`. -/
def get (b : Board) (row col : Fin 3) : Int :=
  match row, col with
  | 0, 0 => b.c00
  | 0, 1 => b.c01
  | 0, 2 => b.c02
  | 1, 0 => b.c10
  | 1, 1 => b.c11
  | 1, 2 => b.c12
  | 2, 0 => b.c20
  | 2, 1 => b.c21
  | 2, 2 => b.c22

/-- Write `board[row][col] = v`. -/
def set (b : Board) (row col : Fin 3) (v : Int) : Board :=
  match row, col with
  | 0, 0 => { b with c00 := v }
  | 0, 1 => { b with c01 := v }
  | 0, 2 => { b with c02 := v }
  | 1, 0 => { b with c10 := v }
  | 1, 1 => { b with c11 := v }
  | 1, 2 => { b with c12 := v }
  | 2, 0 => { b with c20 := v }
  | 2, 1 => { b with c21 := v }
  | 2, 2 => { b with c22 := v }

end Board

/-- Row indices in the order of `for row := 0; row < boardRows; row++`. -/
def rows : List (Fin 3) := [0, 1, 2]

/-- Column indices in the order of `for col := 0; col < boardCols; col++`. -/
def cols : List (Fin 3) := [0, 1, 2]

/-- The cells in the order the nested loops `for row ... for col ...` visit
them (row-major). -/
def cells : List (Fin 3 × Fin 3) :=
  rows.flatMap (fun row => cols.map (fun col => (row, col)))

/-- Number of cells that hold 0 (Empty). -/
def countEmpty (b : Board) : Nat :=
  (cells.filter (fun rc => decide (b.get rc.1 rc.2 = 0))).length

/-! ## The game state (`main.go`, lines 37-47) -/

/-- The struct `Game`. -/
structure Game where
  board : Board
  player : Int
  gameOver : Bool
deriving DecidableEq

/-- The constructor `NewGame()`: zero board, `player: 1`, `gameOver` false. -/
def NewGame : Game := { board := Board.empty, player := 1, gameOver := false }

namespace Game

/-- The method `markSquare(row, col, player)`. -/
def markSquare (g : Game) (row col : Fin 3) (player : Int) : Game :=
  { g with board := g.board.set row col player }

/-- The method `isSquareEmpty(row, col)`. -/
def isSquareEmpty (g : Game) (row col : Fin 3) : Bool :=
  decide (g.board.get row col = 0)

/-- The method `isBoardFull()`: false as soon as a cell holds 0. -/
def isBoardFull (g : Game) : Bool :=
  rows.all (fun row => cols.all (fun col => !decide (g.board.get row col = 0)))

/-- The method `checkWin(player)`: rows, then columns, then the two diagonals. -/
def checkWin (g : Game) (player : Int) : Bool :=
  rows.any (fun row =>
    decide (g.board.get row 0 = player) && decide (g.board.get row 1 = player)
      && decide (g.board.get row 2 = player))
  || cols.any (fun col =>
    decide (g.board.get 0 col = player) && decide (g.board.get 1 col = player)
      && decide (g.board.get 2 col = player))
  || (decide (g.board.get 0 0 = player) && decide (g.board.get 1 1 = player)
      && decide (g.board.get 2 2 = player))
  || (decide (g.board.get 0 2 = player) && decide (g.board.get 1 1 = player)
      && decide (g.board.get 2 0 = player))

/-- The nested loops `for row ... { for col ... { body } }` over a loop state,
where the body may fail to return. -/
def forCells {σ : Type} (body : σ → Fin 3 → Fin 3 → Option σ) (init : σ) : Option σ :=
  rows.foldlM (fun st row => cols.foldlM (fun st col => body st row col) st) init

/-- The method `minimax(depth, isMaximizing)` with a recursion budget: `none`
when the budget runs out, otherwise the returned score together with the
`Game` as the call leaves it.  The loop state is the `Game` and `bestScore`. -/
def minimaxFuel : Nat → Game → Int → Bool → Option (Score × Game)
  | 0, _, _, _ => none
  | fuel + 1, g, depth, isMaximizing =>
    if g.checkWin 2 then some (Score.posInf, g)
    else if g.checkWin 1 then some (Score.negInf, g)
    else if g.isBoardFull then some (Score.fin 0, g)
    else if isMaximizing then
      (forCells (fun (st : Game × Score) row col =>
        if st.1.isSquareEmpty row col then
          match minimaxFuel fuel { st.1 with board := st.1.board.set row col 2 }
              (depth + 1) false with
          | none => none
          | some (score, g1) =>
            some ({ g1 with board := g1.board.set row col 0 }, Score.max score st.2)
        else some st) (g, Score.negInf)).map (fun st => (st.2, st.1))
    else
      (forCells (fun (st : Game × Score) row col =>
        if st.1.isSquareEmpty row col then
          match minimaxFuel fuel { st.1 with board := st.1.board.set row col 1 }
              (depth + 1) true with
          | none => none
          | some (score, g1) =>
            some ({ g1 with board := g1.board.set row col 0 }, Score.min score st.2)
        else some st) (g, Score.posInf)).map (fun st => (st.2, st.1))

/-- The method `minimax(depth, isMaximizing)`: the budget is one more than the
number of empty cells, which `minimaxFuel_returns` shows is always enough, so
the fallback branch is never taken. -/
def minimax (g : Game) (depth : Int) (isMaximizing : Bool) : Score × Game :=
  match minimaxFuel (countEmpty g.board + 1) g depth isMaximizing with
  | some r => r
  | none => (Score.fin 0, g)

/-- The loop state of `bestMove`: the `Game`, `bestScore` and the local
`bestMove`, whose initial value `{-1, -1}` is `none`. -/
structure BestState where
  game : Game
  bestScore : Score
  best : Option (Fin 3 × Fin 3)

/-- One pass of the loop body of `bestMove` at cell `(row, col)`. -/
def bestMoveBody (st : BestState) (row col : Fin 3) : BestState :=
  if st.game.isSquareEmpty row col then
    let r := minimax { st.game with board := st.game.board.set row col 2 } 0 false
    let g1 : Game := { r.2 with board := r.2.board.set row col 0 }
    if Score.lt st.bestScore r.1 then
      { game := g1, bestScore := r.1, best := some (row, col) }
    else { st with game := g1 }
  else st

/-- The two nested loops of `bestMove`. -/
def bestMoveLoop (g : Game) : BestState :=
  rows.foldl (fun st row => cols.foldl (fun st col => bestMoveBody st row col) st)
    { game := g, bestScore := Score.negInf, best := none }

/-- The method `bestMove()`: the returned flag and the `Game` it leaves. -/
def bestMove (g : Game) : Bool × Game :=
  let st := bestMoveLoop g
  match st.best with
  | some (row, col) => (true, st.game.markSquare row col 2)
  | none => (false, st.game)

/-- The method `restartGame()`. -/
def restartGame (g : Game) : Game :=
  { g with board := Board.empty, gameOver := false, player := 1 }

/-- Lines 63-83 of `Update`: the click landed on the in-range cell
`(row, col)`. -/
def playCell (g : Game) (row col : Fin 3) : Game :=
  if g.isSquareEmpty row col then
    let g1 := g.markSquare row col g.player
    let g2 : Game := if g1.checkWin g1.player then { g1 with gameOver := true } else g1
    let g3 : Game := { g2 with player := wrap64 (3 - g2.player) }
    let g4 : Game :=
      if !g3.gameOver then
        let r := g3.bestMove
        if r.1 then
          let g5 : Game := if r.2.checkWin 2 then { r.2 with gameOver := true } else r.2
          { g5 with player := wrap64 (3 - g5.player) }
        else r.2
      else g3
    if !g4.gameOver && g4.isBoardFull then { g4 with gameOver := true } else g4
  else g

/-- Lines 62-84 of `Update`: the range check on `(clickedRow, clickedCol)`,
then the move on that cell. -/
def clickCell (g : Game) (clickedRow clickedCol : Int) : Game :=
  if h : 0 ≤ clickedRow ∧ clickedRow < boardRows ∧ 0 ≤ clickedCol ∧ clickedCol < boardCols then
    g.playCell ⟨clickedRow.toNat, by simp [boardRows] at h; omega⟩
      ⟨clickedCol.toNat, by simp [boardCols] at h; omega⟩
  else g

/-- What `Update` reads from the input collaborator in one frame: whether the
R key was just pressed, whether the left mouse button was just pressed, and
the cursor position. -/
structure Input where
  keyR : Bool
  mouseLeft : Bool
  cursorX : Int
  cursorY : Int

/-- The method `Update()`. -/
def Update (g : Game) (inp : Input) : Game :=
  if g.gameOver then
    if inp.keyR then g.restartGame else g
  else if inp.mouseLeft then
    g.clickCell (Int.tdiv inp.cursorY squareSize) (Int.tdiv inp.cursorX squareSize)
  else g

/-- The human-move step at cell `(row, col)`: `Update` on a frame where the R
key is not pressed and the left button is pressed with the cursor on the
top-left pixel of square `(row, col)`. -/
def humanMove (g : Game) (row col : Int) : Game :=
  g.Update { keyR := false, mouseLeft := true,
             cursorX := col * squareSize, cursorY := row * squareSize }

/-! ## The value computed by the search

The search leaves the `Game` as it found it (`minimaxFuel_returns`), so its
score is a function of the position alone.  `valueFuel` is that function,
written without the mutation; `minimaxFuel_returns` proves that the source
embedding `minimaxFuel` computes it. -/

/-- The score of `minimaxFuel`, as a function of the position. -/
def valueFuel : Nat → Game → Bool → Score
  | 0, _, _ => Score.fin 0
  | fuel + 1, g, isMaximizing =>
    if g.checkWin 2 then Score.posInf
    else if g.checkWin 1 then Score.negInf
    else if g.isBoardFull then Score.fin 0
    else if isMaximizing then
      cells.foldl (fun best rc =>
        if g.isSquareEmpty rc.1 rc.2 then
          Score.max (valueFuel fuel { g with board := g.board.set rc.1 rc.2 2 } false) best
        else best) Score.negInf
    else
      cells.foldl (fun best rc =>
        if g.isSquareEmpty rc.1 rc.2 then
          Score.min (valueFuel fuel { g with board := g.board.set rc.1 rc.2 1 } true) best
        else best) Score.posInf

/-- The score of `minimax`, as a function of the position. -/
def value (g : Game) (isMaximizing : Bool) : Score :=
  valueFuel (countEmpty g.board + 1) g isMaximizing

/-- The score `bestMove` computes for cell `(row, col)`: the result of
`minimax(0, false)` on the board with that cell set to 2. -/
def moveScore (g : Game) (row col : Fin 3) : Score :=
  (minimax { g with board := g.board.set row col 2 } 0 false).1

/-- Row-major order of the cells: `(r1, c1)` is visited before `(r2, c2)`. -/
def precedes (rc1 rc2 : Fin 3 × Fin 3) : Prop :=
  rc1.1 < rc2.1 ∨ (rc1.1 = rc2.1 ∧ rc1.2 < rc2.2)

/-- The loop invariant of `bestMove` after the cells in `seen` have been
visited on `g`: the `Game` is restored, and the local `bestMove` is the first
visited empty cell of maximal score, if any visited empty cell scores above
minus infinity. -/
def BestInv (g : Game) (seen : List (Fin 3 × Fin 3)) (st : BestState) : Prop :=
  st.game = g ∧
  match st.best with
  | none => st.bestScore = Score.negInf ∧
      ∀ y ∈ seen, g.board.get y.1 y.2 = 0 → moveScore g y.1 y.2 = Score.negInf
  | some x => x ∈ seen ∧ g.board.get x.1 x.2 = 0 ∧ st.bestScore = moveScore g x.1 x.2 ∧
      Score.lt Score.negInf (moveScore g x.1 x.2) = true ∧
      (∀ y ∈ seen, g.board.get y.1 y.2 = 0 →
        Score.le (moveScore g y.1 y.2) (moveScore g x.1 x.2) = true) ∧
      (∀ y ∈ seen, g.board.get y.1 y.2 = 0 → precedes y x →
        Score.lt (moveScore g y.1 y.2) (moveScore g x.1 x.2) = true)

/-- The 8 winning lines as the specification lists them: rows 0..2, columns
0..2, the main diagonal, the anti-diagonal. -/
def winLines : List (List (Fin 3 × Fin 3)) :=
  [[(0, 0), (0, 1), (0, 2)], [(1, 0), (1, 1), (1, 2)], [(2, 0), (2, 1), (2, 2)],
   [(0, 0), (1, 0), (2, 0)], [(0, 1), (1, 1), (2, 1)], [(0, 2), (1, 2), (2, 2)],
   [(0, 0), (1, 1), (2, 2)], [(0, 2), (1, 1), (2, 0)]]

/-- The states the program can be in: `NewGame()`, then any sequence of
human-move steps (any cell, accepted or rejected) and restarts. -/
inductive Reachable : Game → Prop
  | init : Reachable NewGame
  | move (g : Game) (row col : Int) : Reachable g → Reachable (g.humanMove row col)
  | restart (g : Game) : Reachable g → Reachable g.restartGame

/-- The in-progress position with Computer at (0,0), (1,1) and Human at (0,1),
(1,0), Human to move. -/
def diagPosition : Game :=
  { board := ⟨2, 1, 0, 1, 2, 0, 0, 0, 0⟩, player := 1, gameOver := false }

/-- A position with the Computer to move in which (2,2) completes the main
diagonal at once: Computer at (0,0), (1,1), Human at (0,1), (1,0), (1,2). -/
def slowWinPosition : Game :=
  { board := ⟨2, 1, 0, 1, 2, 1, 0, 0, 0⟩, player := 2, gameOver := false }

/-- An in-progress position whose only Empty cell is (0,0), Human to move. -/
def lastCellPosition : Game :=
  { board := ⟨0, 1, 2, 2, 2, 1, 1, 2, 1⟩, player := 1, gameOver := false }

/-- A board on which both players hold a full row: row 0 is the Human's, row 1
the Computer's. -/
def twoRowsPosition : Game :=
  { board := ⟨1, 1, 1, 2, 2, 2, 0, 0, 0⟩, player := 1, gameOver := false }

/-- The values `minimax` can return: minus infinity, 0 or plus infinity. -/
def isOutcome (s : Score) : Prop :=
  s = Score.negInf ∨ s = Score.fin 0 ∨ s = Score.posInf

/-- The position after the Human opens in the centre, Computer to move. -/
def centrePosition : Game :=
  { board := ⟨0, 0, 0, 0, 1, 0, 0, 0, 0⟩, player := 2, gameOver := false }

/-- Number of cells that hold the mark `p`. -/
def countMark (b : Board) (p : Int) : Nat :=
  (cells.filter (fun rc => decide (b.get rc.1 rc.2 = p))).length

/-- The invariant of play: the Human has no line, and while the game is in
progress the Human is to move, the Computer has no line and the search value of
the position with the Human to move is not below 0. -/
def Safe (g : Game) : Prop :=
  g.checkWin 1 = false ∧
    (g.gameOver = false →
      g.player = 1 ∧ g.checkWin 2 = false ∧ Score.le (Score.fin 0) (value g false) = true)

/-- A second invariant of play: the game-over flag is the terminal status of
the board, every cell is 0, 1 or 2, and the Human holds as many cells as the
Computer while the game is in progress and at most one more once it is over. -/
def Settled (g : Game) : Prop :=
  (g.gameOver = true ↔
    (g.checkWin 1 = true ∨ g.checkWin 2 = true ∨ g.isBoardFull = true)) ∧
  (∀ r c, g.board.get r c = 0 ∨ g.board.get r c = 1 ∨ g.board.get r c = 2) ∧
  (g.gameOver = false → countMark g.board 1 = countMark g.board 2) ∧
  (countMark g.board 1 = countMark g.board 2 ∨
    countMark g.board 1 = countMark g.board 2 + 1)

/-! ## A checker for the search value

`drawN` decides, with early exit, a sufficient condition for the search value
of a position to be at least 0.  The nine cells are passed as separate natural
numbers (`a0` is `board[0][0]`, `a8` is `board[2][2]`) so that the check
evaluates quickly; `drawN_sound` relates it to `valueFuel`. -/

/-- The eight line tests of `checkWin` on nine separate cells. -/
def winN (a0 a1 a2 a3 a4 a5 a6 a7 a8 p : Nat) : Bool :=
  (Nat.beq a0 p && (Nat.beq a1 p && Nat.beq a2 p)) ||
  ((Nat.beq a3 p && (Nat.beq a4 p && Nat.beq a5 p)) ||
  ((Nat.beq a6 p && (Nat.beq a7 p && Nat.beq a8 p)) ||
  ((Nat.beq a0 p && (Nat.beq a3 p && Nat.beq a6 p)) ||
  ((Nat.beq a1 p && (Nat.beq a4 p && Nat.beq a7 p)) ||
  ((Nat.beq a2 p && (Nat.beq a5 p && Nat.beq a8 p)) ||
  ((Nat.beq a0 p && (Nat.beq a4 p && Nat.beq a8 p)) ||
  (Nat.beq a2 p && (Nat.beq a4 p && Nat.beq a6 p))))))))

/-- The test of `isBoardFull` on nine separate cells. -/
def fullN (a0 a1 a2 a3 a4 a5 a6 a7 a8 : Nat) : Bool :=
  !(Nat.beq a0 0 || (Nat.beq a1 0 || (Nat.beq a2 0 || (Nat.beq a3 0 || (Nat.beq a4 0 ||
    (Nat.beq a5 0 || (Nat.beq a6 0 || (Nat.beq a7 0 || Nat.beq a8 0))))))))

/-- A sufficient check that the search value is at least 0: on a maximizing
position some Computer move (centre, corners, then edges) keeps the check true,
on a minimizing position every Human move does. -/
def drawN : Nat → Nat → Nat → Nat → Nat → Nat → Nat → Nat → Nat → Nat → Bool → Bool
  | 0, _, _, _, _, _, _, _, _, _, _ => false
  | fuel + 1, a0, a1, a2, a3, a4, a5, a6, a7, a8, isMaximizing =>
    winN a0 a1 a2 a3 a4 a5 a6 a7 a8 2 ||
    (!winN a0 a1 a2 a3 a4 a5 a6 a7 a8 1 &&
    (fullN a0 a1 a2 a3 a4 a5 a6 a7 a8 ||
    (bif isMaximizing then
      (Nat.beq a4 0 && drawN fuel a0 a1 a2 a3 2 a5 a6 a7 a8 false) ||
      ((Nat.beq a0 0 && drawN fuel 2 a1 a2 a3 a4 a5 a6 a7 a8 false) ||
      ((Nat.beq a2 0 && drawN fuel a0 a1 2 a3 a4 a5 a6 a7 a8 false) ||
      ((Nat.beq a6 0 && drawN fuel a0 a1 a2 a3 a4 a5 2 a7 a8 false) ||
      ((Nat.beq a8 0 && drawN fuel a0 a1 a2 a3 a4 a5 a6 a7 2 false) ||
      ((Nat.beq a1 0 && drawN fuel a0 2 a2 a3 a4 a5 a6 a7 a8 false) ||
      ((Nat.beq a3 0 && drawN fuel a0 a1 a2 2 a4 a5 a6 a7 a8 false) ||
      ((Nat.beq a5 0 && drawN fuel a0 a1 a2 a3 a4 2 a6 a7 a8 false) ||
      (Nat.beq a7 0 && drawN fuel a0 a1 a2 a3 a4 a5 a6 2 a8 false))))))))
    else
      (!Nat.beq a0 0 || drawN fuel 1 a1 a2 a3 a4 a5 a6 a7 a8 true) &&
      ((!Nat.beq a1 0 || drawN fuel a0 1 a2 a3 a4 a5 a6 a7 a8 true) &&
      ((!Nat.beq a2 0 || drawN fuel a0 a1 1 a3 a4 a5 a6 a7 a8 true) &&
      ((!Nat.beq a3 0 || drawN fuel a0 a1 a2 1 a4 a5 a6 a7 a8 true) &&
      ((!Nat.beq a4 0 || drawN fuel a0 a1 a2 a3 1 a5 a6 a7 a8 true) &&
      ((!Nat.beq a5 0 || drawN fuel a0 a1 a2 a3 a4 1 a6 a7 a8 true) &&
      ((!Nat.beq a6 0 || drawN fuel a0 a1 a2 a3 a4 a5 1 a7 a8 true) &&
      ((!Nat.beq a7 0 || drawN fuel a0 a1 a2 a3 a4 a5 a6 1 a8 true) &&
      (!Nat.beq a8 0 || drawN fuel a0 a1 a2 a3 a4 a5 a6 a7 1 true)))))))))))

/-- A sufficient check that the search value is at most 0: on a maximizing
position every Computer move keeps the check true, on a minimizing position
some Human move (centre, corners, then edges) does. -/
def capN : Nat → Nat → Nat → Nat → Nat → Nat → Nat → Nat → Nat → Nat → Bool → Bool
  | 0, _, _, _, _, _, _, _, _, _, _ => false
  | fuel + 1, a0, a1, a2, a3, a4, a5, a6, a7, a8, isMaximizing =>
    !winN a0 a1 a2 a3 a4 a5 a6 a7 a8 2 &&
    (winN a0 a1 a2 a3 a4 a5 a6 a7 a8 1 ||
    (fullN a0 a1 a2 a3 a4 a5 a6 a7 a8 ||
    (bif isMaximizing then
      (!Nat.beq a0 0 || capN fuel 2 a1 a2 a3 a4 a5 a6 a7 a8 false) &&
      ((!Nat.beq a1 0 || capN fuel a0 2 a2 a3 a4 a5 a6 a7 a8 false) &&
      ((!Nat.beq a2 0 || capN fuel a0 a1 2 a3 a4 a5 a6 a7 a8 false) &&
      ((!Nat.beq a3 0 || capN fuel a0 a1 a2 2 a4 a5 a6 a7 a8 false) &&
      ((!Nat.beq a4 0 || capN fuel a0 a1 a2 a3 2 a5 a6 a7 a8 false) &&
      ((!Nat.beq a5 0 || capN fuel a0 a1 a2 a3 a4 2 a6 a7 a8 false) &&
      ((!Nat.beq a6 0 || capN fuel a0 a1 a2 a3 a4 a5 2 a7 a8 false) &&
      ((!Nat.beq a7 0 || capN fuel a0 a1 a2 a3 a4 a5 a6 2 a8 false) &&
      (!Nat.beq a8 0 || capN fuel a0 a1 a2 a3 a4 a5 a6 a7 2 false))))))))
    else
      (Nat.beq a4 0 && capN fuel a0 a1 a2 a3 1 a5 a6 a7 a8 true) ||
      ((Nat.beq a0 0 && capN fuel 1 a1 a2 a3 a4 a5 a6 a7 a8 true) ||
      ((Nat.beq a2 0 && capN fuel a0 a1 1 a3 a4 a5 a6 a7 a8 true) ||
      ((Nat.beq a6 0 && capN fuel a0 a1 a2 a3 a4 a5 1 a7 a8 true) ||
      ((Nat.beq a8 0 && capN fuel a0 a1 a2 a3 a4 a5 a6 a7 1 true) ||
      ((Nat.beq a1 0 && capN fuel a0 1 a2 a3 a4 a5 a6 a7 a8 true) ||
      ((Nat.beq a3 0 && capN fuel a0 a1 a2 1 a4 a5 a6 a7 a8 true) ||
      ((Nat.beq a5 0 && capN fuel a0 a1 a2 a3 a4 1 a6 a7 a8 true) ||
      (Nat.beq a7 0 && capN fuel a0 a1 a2 a3 a4 a5 a6 1 a8 true)))))))))))

/-- The `Game` whose nine cells are the given natural numbers. -/
def ofCells (a0 a1 a2 a3 a4 a5 a6 a7 a8 : Nat) (player : Int) (gameOver : Bool) : Game :=
  { board := ⟨a0, a1, a2, a3, a4, a5, a6, a7, a8⟩, player := player, gameOver := gameOver }

end Game


/-! ## Scores: order facts -/

namespace Score

theorem lt_irrefl (x : Score) : lt x x = false := by
  cases x <;> simp [lt]

theorem lt_trans {x y z : Score} (h1 : lt x y = true) (h2 : lt y z = true) :
    lt x z = true := by
  cases x <;> cases y <;> cases z <;> simp_all [lt]
  omega

theorem lt_asymm {x y : Score} (h : lt x y = true) : lt y x = false := by
  cases x <;> cases y <;> simp_all [lt]
  omega

theorem le_refl (x : Score) : le x x = true := by
  simp [le, lt_irrefl]

theorem le_trans {x y z : Score} (h1 : le x y = true) (h2 : le y z = true) :
    le x z = true := by
  cases x <;> cases y <;> cases z <;> simp_all [le, lt]
  omega

theorem lt_of_le_of_lt {x y z : Score} (h1 : le x y = true) (h2 : lt y z = true) :
    lt x z = true := by
  cases x <;> cases y <;> cases z <;> simp_all [le, lt]
  omega

theorem le_of_lt {x y : Score} (h : lt x y = true) : le x y = true := by
  simp [le, lt_asymm h]

theorem le_of_not_lt {x y : Score} (h : lt x y = false) : le y x = true := by
  simp [le, h]

theorem negInf_le (x : Score) : le negInf x = true := by
  cases x <;> simp [le, lt]

theorem le_posInf (x : Score) : le x posInf = true := by
  cases x <;> simp [le, lt]

theorem eq_negInf_of_not_lt {x : Score} (h : lt negInf x = false) : x = negInf := by
  cases x <;> simp_all [lt]

theorem le_max_left (x y : Score) : le x (max x y) = true := by
  unfold max; split
  · next h => exact le_of_lt h
  · exact le_refl x

theorem le_max_right (x y : Score) : le y (max x y) = true := by
  unfold max; split
  · exact le_refl y
  · next h => exact le_of_not_lt (by simpa using h)

theorem max_le {x y z : Score} (h1 : le x z = true) (h2 : le y z = true) :
    le (max x y) z = true := by
  unfold max; split <;> assumption

theorem min_le_left (x y : Score) : le (min x y) x = true := by
  unfold min; split
  · next h => exact le_of_lt h
  · exact le_refl x

theorem min_le_right (x y : Score) : le (min x y) y = true := by
  unfold min; split
  · exact le_refl y
  · next h => exact le_of_not_lt (by simpa using h)

theorem le_min {x y z : Score} (h1 : le z x = true) (h2 : le z y = true) :
    le z (min x y) = true := by
  unfold min; split <;> assumption

end Score

/-! ## The board: reading and writing cells -/

theorem Board.get_set (b : Board) (r c r' c' : Fin 3) (v : Int) :
    (b.set r c v).get r' c' = if r' = r ∧ c' = c then v else b.get r' c' := by
  fin_cases r <;> fin_cases c <;> fin_cases r' <;> fin_cases c' <;> rfl

theorem Board.get_set_self (b : Board) (r c : Fin 3) (v : Int) :
    (b.set r c v).get r c = v := by
  simp [Board.get_set]

theorem Board.ext_get {b b' : Board} (h : ∀ r c, b.get r c = b'.get r c) : b = b' := by
  cases b; cases b'
  have h00 := h 0 0; have h01 := h 0 1; have h02 := h 0 2
  have h10 := h 1 0; have h11 := h 1 1; have h12 := h 1 2
  have h20 := h 2 0; have h21 := h 2 1; have h22 := h 2 2
  simp only [Board.get] at h00 h01 h02 h10 h11 h12 h20 h21 h22
  subst_vars; rfl

theorem Board.set_set (b : Board) (r c : Fin 3) (v w : Int) :
    (b.set r c v).set r c w = b.set r c w := by
  apply Board.ext_get; intro r' c'; simp only [Board.get_set]; split <;> rfl

theorem Board.set_get_self (b : Board) (r c : Fin 3) : b.set r c (b.get r c) = b := by
  apply Board.ext_get; intro r' c'; simp only [Board.get_set]; split
  · next h => rw [h.1, h.2]
  · rfl

/-- Undoing a speculative mark on an empty cell gives the board back. -/
theorem Board.set_undo (b : Board) (r c : Fin 3) (v : Int) (h : b.get r c = 0) :
    (b.set r c v).set r c 0 = b := by
  rw [Board.set_set, ← h, Board.set_get_self]

theorem cells_eq :
    cells = [(0, 0), (0, 1), (0, 2), (1, 0), (1, 1), (1, 2), (2, 0), (2, 1), (2, 2)] := by
  decide

theorem mem_cells (rc : Fin 3 × Fin 3) : rc ∈ cells := by
  revert rc; decide

theorem cells_nodup : cells.Nodup := by decide

/-- Changing a predicate from true to false at one point of a duplicate-free
list lowers the count by one. -/
theorem countP_flip {α : Type} [DecidableEq α] (l : List α) (x : α) (p q : α → Bool)
    (hnd : l.Nodup) (hx : x ∈ l) (hp : p x = true) (hq : q x = false)
    (h : ∀ y, y ≠ x → q y = p y) :
    (l.filter q).length + 1 = (l.filter p).length := by
  induction l with
  | nil => simp at hx
  | cons a l ih =>
    rw [List.nodup_cons] at hnd
    by_cases hax : a = x
    · subst hax
      have hl : l.filter q = l.filter p := by
        apply List.filter_congr
        intro y hy
        exact h y (fun e => hnd.1 (e ▸ hy))
      simp [List.filter_cons, hp, hq, hl]
    · have hxl : x ∈ l := by
        rcases List.mem_cons.1 hx with e | e
        · exact absurd e.symm hax
        · exact e
      have := ih hnd.2 hxl
      simp only [List.filter_cons, h a hax]
      split
      · simp only [List.length_cons]; omega
      · exact this

/-- Marking an empty cell removes exactly one empty cell. -/
theorem countEmpty_set (b : Board) (r c : Fin 3) (v : Int) (h : b.get r c = 0)
    (hv : v ≠ 0) : countEmpty (b.set r c v) + 1 = countEmpty b := by
  unfold countEmpty
  apply countP_flip cells (r, c) _ _ cells_nodup (mem_cells _)
  · simpa using h
  · simp [Board.get_set, hv]
  · intro y hy
    have : ¬ (y.1 = r ∧ y.2 = c) := fun e => hy (Prod.ext e.1 e.2)
    simp [Board.get_set, this]


/-! ## The search returns, restores the state and computes `valueFuel` -/

namespace Game

theorem forCells_eq {σ : Type} (body : σ → Fin 3 → Fin 3 → Option σ) (init : σ) :
    forCells body init = cells.foldlM (fun st rc => body st rc.1 rc.2) init := by
  simp only [forCells, cells_eq, rows, cols, List.foldlM, bind_assoc, bind_pure, pure_bind]

/-- One loop of `minimaxFuel`, given that the recursive calls return and
restore: the loop returns, leaves the `Game` as it was and folds the scores. -/
theorem minimaxLoop_returns (f : Nat) (g : Game) (d : Int) (mark : Int) (flag : Bool)
    (comb : Score → Score → Score)
    (ih : ∀ (g' : Game) (d' : Int), countEmpty g'.board < f →
      minimaxFuel f g' d' flag = some (valueFuel f g' flag, g'))
    (hmark : mark ≠ 0) (hcnt : countEmpty g.board < f + 1)
    (l : List (Fin 3 × Fin 3)) (best : Score) :
    l.foldlM (fun (st : Game × Score) rc =>
        if st.1.isSquareEmpty rc.1 rc.2 then
          match minimaxFuel f { st.1 with board := st.1.board.set rc.1 rc.2 mark } (d + 1) flag with
          | none => none
          | some (score, g1) =>
            some ({ g1 with board := g1.board.set rc.1 rc.2 0 }, comb score st.2)
        else some st) (g, best)
      = some (g, l.foldl (fun best rc =>
          if g.isSquareEmpty rc.1 rc.2 then
            comb (valueFuel f { g with board := g.board.set rc.1 rc.2 mark } flag) best
          else best) best) := by
  induction l generalizing best with
  | nil => rfl
  | cons rc l ihl =>
    rw [List.foldlM_cons, List.foldl_cons]
    by_cases he : g.isSquareEmpty rc.1 rc.2 = true
    · have h0 : g.board.get rc.1 rc.2 = 0 := by simpa [isSquareEmpty] using he
      have hc := countEmpty_set g.board rc.1 rc.2 mark h0 hmark
      have hr := ih { g with board := g.board.set rc.1 rc.2 mark } (d + 1)
        (by show countEmpty (g.board.set rc.1 rc.2 mark) < f; omega)
      simp only [he, if_true, hr, Board.set_undo g.board rc.1 rc.2 mark h0]
      exact ihl _
    · simp only [he, if_false, Bool.false_eq_true]
      exact ihl _

/-- The embedded `minimax` returns whenever the budget exceeds the number of
empty cells; it returns the score `valueFuel` and the `Game` it was given. -/
theorem minimaxFuel_returns (fuel : Nat) (g : Game) (depth : Int) (isMaximizing : Bool)
    (h : countEmpty g.board < fuel) :
    minimaxFuel fuel g depth isMaximizing = some (valueFuel fuel g isMaximizing, g) := by
  induction fuel generalizing g depth isMaximizing with
  | zero => omega
  | succ f ih =>
    rw [minimaxFuel, valueFuel]
    by_cases h2 : g.checkWin 2 = true
    · simp [h2]
    by_cases h1 : g.checkWin 1 = true
    · simp [h2, h1]
    by_cases hf : g.isBoardFull = true
    · simp [h2, h1, hf]
    simp only [h2, h1, hf, if_false, Bool.false_eq_true]
    cases isMaximizing with
    | true =>
      simp only [if_true, forCells_eq]
      exact congrArg (Option.map (fun st : Game × Score => (st.2, st.1)))
        (minimaxLoop_returns f g depth 2 false Score.max (fun g' d' hg => ih g' d' false hg)
          (by decide) h cells Score.negInf)
    | false =>
      simp only [if_false, Bool.false_eq_true, forCells_eq]
      exact congrArg (Option.map (fun st : Game × Score => (st.2, st.1)))
        (minimaxLoop_returns f g depth 1 true Score.min (fun g' d' hg => ih g' d' true hg)
          (by decide) h cells Score.posInf)

/-- The embedded `minimax` never takes its fallback branch: it is the score
`value` and the unchanged `Game`. -/
theorem minimax_eq (g : Game) (depth : Int) (isMaximizing : Bool) :
    minimax g depth isMaximizing = (value g isMaximizing, g) := by
  unfold minimax value
  rw [minimaxFuel_returns _ g depth isMaximizing (Nat.lt_succ_self _)]

end Game

/-! ## `bestMove`: the selected cell -/

namespace Game

theorem moveScore_eq (g : Game) (row col : Fin 3) :
    moveScore g row col = value { g with board := g.board.set row col 2 } false := by
  simp [moveScore, minimax_eq]

theorem bestMoveLoop_eq (g : Game) :
    bestMoveLoop g = cells.foldl (fun st rc => bestMoveBody st rc.1 rc.2)
      { game := g, bestScore := Score.negInf, best := none } := rfl

/-- The loop body of `bestMove` on a restored `Game`: it restores the `Game`
again and updates the best cell on a strictly greater score. -/
theorem bestMoveBody_eq (g : Game) (st : BestState) (row col : Fin 3) (hg : st.game = g) :
    bestMoveBody st row col =
      if g.board.get row col = 0 then
        if Score.lt st.bestScore (moveScore g row col) then
          { game := g, bestScore := moveScore g row col, best := some (row, col) }
        else st
      else st := by
  unfold bestMoveBody
  subst hg
  by_cases he : st.game.board.get row col = 0
  · simp only [isSquareEmpty, he, decide_True, if_true, minimax_eq, moveScore,
      Board.set_undo _ _ _ _ he]
  · simp [isSquareEmpty, he]

theorem precedes_asymm : ∀ a b : Fin 3 × Fin 3, precedes a b → ¬ precedes b a := by
  unfold precedes; decide

theorem cells_pairwise : cells.Pairwise precedes := by
  unfold precedes; decide

/-- The loop invariant `BestInv` is preserved by one pass of the loop body. -/
theorem bestInv_step (g : Game) (seen : List (Fin 3 × Fin 3)) (st : BestState)
    (z : Fin 3 × Fin 3) (hz : ∀ y ∈ seen, precedes y z) (hinv : BestInv g seen st) :
    BestInv g (seen ++ [z]) (bestMoveBody st z.1 z.2) := by
  obtain ⟨hg, hb⟩ := hinv
  rw [bestMoveBody_eq g st z.1 z.2 hg]
  have hzz : ¬ precedes z z := fun h => precedes_asymm z z h h
  by_cases he : g.board.get z.1 z.2 = 0
  · simp only [he, if_true]
    by_cases hl : Score.lt st.bestScore (moveScore g z.1 z.2) = true
    · simp only [hl, if_true]
      refine ⟨rfl, ?_⟩
      show z ∈ seen ++ [z] ∧ _
      refine ⟨by simp, he, rfl, ?_, ?_, ?_⟩
      · exact Score.lt_of_le_of_lt (Score.negInf_le _) hl
      · intro y hy hy0
        rcases List.mem_append.1 hy with hy | hy
        · cases hbest : st.best with
          | none =>
            rw [hbest] at hb
            rw [hb.2 y hy hy0]; exact Score.negInf_le _
          | some x =>
            rw [hbest] at hb
            obtain ⟨_, _, hbs, _, hmax, _⟩ := hb
            rw [hbs] at hl
            exact Score.le_trans (hmax y hy hy0) (Score.le_of_lt hl)
        · rw [List.mem_singleton.1 hy]; exact Score.le_refl _
      · intro y hy hy0 hp
        rcases List.mem_append.1 hy with hy | hy
        · cases hbest : st.best with
          | none =>
            rw [hbest] at hb
            rw [hb.2 y hy hy0, ← hb.1]; exact hl
          | some x =>
            rw [hbest] at hb
            obtain ⟨_, _, hbs, _, hmax, _⟩ := hb
            rw [hbs] at hl
            exact Score.lt_of_le_of_lt (hmax y hy hy0) hl
        · rw [List.mem_singleton.1 hy] at hp; exact absurd hp hzz
    · simp only [hl, if_false, Bool.false_eq_true]
      have hl' : Score.lt st.bestScore (moveScore g z.1 z.2) = false := by simpa using hl
      refine ⟨hg, ?_⟩
      cases hbest : st.best with
      | none =>
        rw [hbest] at hb
        refine ⟨hb.1, ?_⟩
        intro y hy hy0
        rcases List.mem_append.1 hy with hy | hy
        · exact hb.2 y hy hy0
        · rw [List.mem_singleton.1 hy]
          rw [hb.1] at hl'
          exact Score.eq_negInf_of_not_lt hl'
      | some x =>
        rw [hbest] at hb
        obtain ⟨hx, hx0, hbs, hpos, hmax, hfirst⟩ := hb
        rw [hbs] at hl'
        refine ⟨by simp [hx], hx0, hbs, hpos, ?_, ?_⟩
        · intro y hy hy0
          rcases List.mem_append.1 hy with hy | hy
          · exact hmax y hy hy0
          · rw [List.mem_singleton.1 hy]; exact Score.le_of_not_lt hl'
        · intro y hy hy0 hp
          rcases List.mem_append.1 hy with hy | hy
          · exact hfirst y hy hy0 hp
          · rw [List.mem_singleton.1 hy] at hp
            exact absurd hp (precedes_asymm x z (hz x hx))
  · simp only [he, if_false]
    refine ⟨hg, ?_⟩
    cases hbest : st.best with
    | none =>
      rw [hbest] at hb
      refine ⟨hb.1, ?_⟩
      intro y hy hy0
      rcases List.mem_append.1 hy with hy | hy
      · exact hb.2 y hy hy0
      · rw [List.mem_singleton.1 hy] at hy0; exact absurd hy0 he
    | some x =>
      rw [hbest] at hb
      obtain ⟨hx, hx0, hbs, hpos, hmax, hfirst⟩ := hb
      refine ⟨by simp [hx], hx0, hbs, hpos, ?_, ?_⟩
      · intro y hy hy0
        rcases List.mem_append.1 hy with hy | hy
        · exact hmax y hy hy0
        · rw [List.mem_singleton.1 hy] at hy0; exact absurd hy0 he
      · intro y hy hy0 hp
        rcases List.mem_append.1 hy with hy | hy
        · exact hfirst y hy hy0 hp
        · rw [List.mem_singleton.1 hy] at hy0; exact absurd hy0 he

/-- The loop invariant `BestInv` holds after any run of the loop over a list
visited in row-major order. -/
theorem bestInv_foldl (g : Game) (l seen : List (Fin 3 × Fin 3)) (st : BestState)
    (hpw : (seen ++ l).Pairwise precedes) (hinv : BestInv g seen st) :
    BestInv g (seen ++ l) (l.foldl (fun st rc => bestMoveBody st rc.1 rc.2) st) := by
  induction l generalizing seen st with
  | nil => simpa using hinv
  | cons z l ih =>
    rw [List.foldl_cons]
    have hz : ∀ y ∈ seen, precedes y z := by
      intro y hy
      exact (List.pairwise_append.1 hpw).2.2 y hy z (List.mem_cons_self _ _)
    have h := ih (seen ++ [z]) (bestMoveBody st z.1 z.2) (by simpa using hpw)
      (bestInv_step g seen st z hz hinv)
    simpa using h

theorem bestMoveLoop_inv (g : Game) : BestInv g cells (bestMoveLoop g) := by
  rw [bestMoveLoop_eq]
  have h := bestInv_foldl g cells [] { game := g, bestScore := Score.negInf, best := none }
    (by simpa using cells_pairwise) ⟨rfl, rfl, by simp⟩
  simpa using h

/-- What `bestMove` does: either every empty cell scores minus infinity, it
returns false and the `Game` is unchanged; or it returns true and marks the
first empty cell of maximal score, which is above minus infinity. -/
theorem bestMove_cases (g : Game) :
    (g.bestMove = (false, g) ∧
      ∀ r c, g.board.get r c = 0 → moveScore g r c = Score.negInf) ∨
    (∃ r c, g.bestMove = (true, g.markSquare r c 2) ∧ g.board.get r c = 0 ∧
      Score.lt Score.negInf (moveScore g r c) = true ∧
      (∀ r' c', g.board.get r' c' = 0 →
        Score.le (moveScore g r' c') (moveScore g r c) = true) ∧
      (∀ r' c', g.board.get r' c' = 0 → precedes (r', c') (r, c) →
        Score.lt (moveScore g r' c') (moveScore g r c) = true)) := by
  obtain ⟨hg, hb⟩ := bestMoveLoop_inv g
  unfold bestMove
  cases hbest : (bestMoveLoop g).best with
  | none =>
    rw [hbest] at hb
    left
    refine ⟨by simp [hbest, hg], ?_⟩
    intro r c h0
    exact hb.2 (r, c) (mem_cells _) h0
  | some x =>
    rw [hbest] at hb
    obtain ⟨_, hx0, _, hpos, hmax, hfirst⟩ := hb
    right
    refine ⟨x.1, x.2, by simp [hbest, hg], hx0, hpos, ?_, ?_⟩
    · intro r' c' h0; exact hmax (r', c') (mem_cells _) h0
    · intro r' c' h0 hp; exact hfirst (r', c') (mem_cells _) h0 hp

end Game

/-! ## `checkWin`, `isBoardFull` -/

namespace Game

/-- The method `checkWin` finds exactly the fully marked lines of `winLines`. -/
theorem checkWin_iff_lines (g : Game) (p : Int) :
    g.checkWin p = true ↔
      ∃ line ∈ winLines, ∀ rc ∈ line, g.board.get rc.1 rc.2 = p := by
  simp only [checkWin, rows, cols, winLines, List.any_cons, List.any_nil, Bool.or_false,
    Bool.or_eq_true, Bool.and_eq_true, decide_eq_true_eq, List.mem_cons, List.mem_singleton,
    List.not_mem_nil, or_false, exists_eq_or_imp, forall_eq_or_imp, exists_eq_left, forall_eq,
    and_assoc, or_assoc]

theorem isBoardFull_iff (g : Game) :
    g.isBoardFull = true ↔ ∀ r c, g.board.get r c ≠ 0 := by
  simp only [isBoardFull, rows, cols, List.all_cons, List.all_nil, Bool.and_true,
    Bool.and_eq_true, Bool.not_eq_true', decide_eq_false_iff_not]
  constructor
  · intro h r c
    fin_cases r <;> fin_cases c <;> simp_all
  · intro h
    exact ⟨⟨h 0 0, h 0 1, h 0 2⟩, ⟨h 1 0, h 1 1, h 1 2⟩, ⟨h 2 0, h 2 1, h 2 2⟩⟩

/-- Writing a mark other than `p` never creates a line of `p`. -/
theorem checkWin_set_ne (g : Game) (r c : Fin 3) (v p : Int) (hv : v ≠ p)
    (h : ({ g with board := g.board.set r c v } : Game).checkWin p = true) :
    g.checkWin p = true := by
  rw [checkWin_iff_lines] at h ⊢
  obtain ⟨line, hl, hall⟩ := h
  refine ⟨line, hl, ?_⟩
  intro rc hrc
  have := hall rc hrc
  simp only [Board.get_set] at this
  split at this
  · exact absurd this hv
  · exact this

end Game

/-! ## `Update`: the human-move step -/

namespace Game

theorem squareSize_eq : squareSize = 100 := by decide

/-- The human-move step is the game-over gate followed by lines 62-84. -/
theorem humanMove_eq (g : Game) (row col : Int) :
    g.humanMove row col = if g.gameOver then g else g.clickCell row col := by
  have h100 : (100 : Int) ≠ 0 := by decide
  simp [humanMove, Update, squareSize_eq, Int.mul_tdiv_cancel _ h100]

theorem clickCell_fin (g : Game) (r c : Fin 3) :
    g.clickCell (r : Int) (c : Int) = g.playCell r c := by
  have hr := r.isLt
  have hc := c.isLt
  have h : 0 ≤ ((r : Nat) : Int) ∧ ((r : Nat) : Int) < boardRows ∧
      0 ≤ ((c : Nat) : Int) ∧ ((c : Nat) : Int) < boardCols := by
    simp only [boardRows, boardCols]; omega
  unfold clickCell
  rw [dif_pos h]
  rfl

theorem clickCell_out (g : Game) (row col : Int)
    (h : ¬ (0 ≤ row ∧ row < 3 ∧ 0 ≤ col ∧ col < 3)) : g.clickCell row col = g := by
  unfold clickCell
  rw [dif_neg]
  simpa [boardRows, boardCols] using h

/-- Every requested cell is either out of range or a cell of the board. -/
theorem cell_cases (row col : Int) :
    ¬ (0 ≤ row ∧ row < 3 ∧ 0 ≤ col ∧ col < 3) ∨
      ∃ r c : Fin 3, ((r : Nat) : Int) = row ∧ ((c : Nat) : Int) = col := by
  by_cases h : 0 ≤ row ∧ row < 3 ∧ 0 ≤ col ∧ col < 3
  · right
    refine ⟨⟨row.toNat, by omega⟩, ⟨col.toNat, by omega⟩, ?_, ?_⟩ <;> simp <;> omega
  · left; exact h

end Game

/-! ## The folds of the search -/

/-- The maximizing loop is at least its start value and at least the score of
every cell it takes. -/
theorem le_foldMax (p : Fin 3 × Fin 3 → Bool) (v : Fin 3 × Fin 3 → Score)
    (l : List (Fin 3 × Fin 3)) (init : Score) :
    Score.le init (l.foldl (fun best rc => if p rc then Score.max (v rc) best else best) init)
        = true ∧
      ∀ rc ∈ l, p rc = true →
        Score.le (v rc)
          (l.foldl (fun best rc => if p rc then Score.max (v rc) best else best) init) = true := by
  induction l generalizing init with
  | nil => exact ⟨Score.le_refl _, by simp⟩
  | cons a l ih =>
    rw [List.foldl_cons]
    have hstep : Score.le init (if p a then Score.max (v a) init else init) = true := by
      split
      · exact Score.le_max_right _ _
      · exact Score.le_refl _
    obtain ⟨h1, h2⟩ := ih (if p a then Score.max (v a) init else init)
    refine ⟨Score.le_trans hstep h1, ?_⟩
    intro rc hrc hp
    rcases List.mem_cons.1 hrc with e | e
    · subst e
      refine Score.le_trans ?_ h1
      rw [if_pos hp]
      exact Score.le_max_left _ _
    · exact h2 rc e hp

/-- The maximizing loop stays below every bound of its start value and of the
scores it takes. -/
theorem foldMax_le (p : Fin 3 × Fin 3 → Bool) (v : Fin 3 × Fin 3 → Score)
    (l : List (Fin 3 × Fin 3)) (init z : Score) (hinit : Score.le init z = true)
    (h : ∀ rc ∈ l, p rc = true → Score.le (v rc) z = true) :
    Score.le (l.foldl (fun best rc => if p rc then Score.max (v rc) best else best) init) z
      = true := by
  induction l generalizing init with
  | nil => exact hinit
  | cons a l ih =>
    rw [List.foldl_cons]
    apply ih
    · split
      · next hp => exact Score.max_le (h a (List.mem_cons_self _ _) hp) hinit
      · exact hinit
    · intro rc hrc hp
      exact h rc (List.mem_cons_of_mem _ hrc) hp

/-- The minimizing loop is at most its start value and at most the score of
every cell it takes. -/
theorem foldMin_le (p : Fin 3 × Fin 3 → Bool) (v : Fin 3 × Fin 3 → Score)
    (l : List (Fin 3 × Fin 3)) (init : Score) :
    Score.le (l.foldl (fun best rc => if p rc then Score.min (v rc) best else best) init) init
        = true ∧
      ∀ rc ∈ l, p rc = true →
        Score.le (l.foldl (fun best rc => if p rc then Score.min (v rc) best else best) init)
          (v rc) = true := by
  induction l generalizing init with
  | nil => exact ⟨Score.le_refl _, by simp⟩
  | cons a l ih =>
    rw [List.foldl_cons]
    have hstep : Score.le (if p a then Score.min (v a) init else init) init = true := by
      split
      · exact Score.min_le_right _ _
      · exact Score.le_refl _
    obtain ⟨h1, h2⟩ := ih (if p a then Score.min (v a) init else init)
    refine ⟨Score.le_trans h1 hstep, ?_⟩
    intro rc hrc hp
    rcases List.mem_cons.1 hrc with e | e
    · subst e
      refine Score.le_trans h1 ?_
      rw [if_pos hp]
      exact Score.min_le_left _ _
    · exact h2 rc e hp

/-- The minimizing loop stays above every bound of its start value and of the
scores it takes. -/
theorem le_foldMin (p : Fin 3 × Fin 3 → Bool) (v : Fin 3 × Fin 3 → Score)
    (l : List (Fin 3 × Fin 3)) (init z : Score) (hinit : Score.le z init = true)
    (h : ∀ rc ∈ l, p rc = true → Score.le z (v rc) = true) :
    Score.le z (l.foldl (fun best rc => if p rc then Score.min (v rc) best else best) init)
      = true := by
  induction l generalizing init with
  | nil => exact hinit
  | cons a l ih =>
    rw [List.foldl_cons]
    apply ih
    · split
      · next hp => exact Score.le_min (h a (List.mem_cons_self _ _) hp) hinit
      · exact hinit
    · intro rc hrc hp
      exact h rc (List.mem_cons_of_mem _ hrc) hp

namespace Game

/-! ## The search value depends on the board alone and unfolds one ply -/

theorem valueFuel_congr (fuel : Nat) (b : Board) (p p' : Int) (o o' : Bool) (m : Bool) :
    valueFuel fuel ⟨b, p, o⟩ m = valueFuel fuel ⟨b, p', o'⟩ m := by
  induction fuel generalizing b m with
  | zero => rfl
  | succ f ih =>
    rw [valueFuel, valueFuel]
    have e2 : (⟨b, p, o⟩ : Game).checkWin 2 = (⟨b, p', o'⟩ : Game).checkWin 2 := rfl
    have e1 : (⟨b, p, o⟩ : Game).checkWin 1 = (⟨b, p', o'⟩ : Game).checkWin 1 := rfl
    have ef : (⟨b, p, o⟩ : Game).isBoardFull = (⟨b, p', o'⟩ : Game).isBoardFull := rfl
    have ee : ∀ r c, (⟨b, p, o⟩ : Game).isSquareEmpty r c
        = (⟨b, p', o'⟩ : Game).isSquareEmpty r c := fun _ _ => rfl
    simp only [e2, e1, ef, ee, ih]

theorem value_congr (b : Board) (p p' : Int) (o o' : Bool) (m : Bool) :
    value ⟨b, p, o⟩ m = value ⟨b, p', o'⟩ m :=
  valueFuel_congr _ b p p' o o' m

/-- One ply of the search value. -/
theorem value_unfold (g : Game) (m : Bool) :
    value g m =
      if g.checkWin 2 then Score.posInf
      else if g.checkWin 1 then Score.negInf
      else if g.isBoardFull then Score.fin 0
      else if m then
        cells.foldl (fun best rc =>
          if g.isSquareEmpty rc.1 rc.2 then
            Score.max (value { g with board := g.board.set rc.1 rc.2 2 } false) best
          else best) Score.negInf
      else
        cells.foldl (fun best rc =>
          if g.isSquareEmpty rc.1 rc.2 then
            Score.min (value { g with board := g.board.set rc.1 rc.2 1 } true) best
          else best) Score.posInf := by
  have hmax : (fun (best : Score) (rc : Fin 3 × Fin 3) =>
        if g.isSquareEmpty rc.1 rc.2 then
          Score.max (valueFuel (countEmpty g.board)
            { g with board := g.board.set rc.1 rc.2 2 } false) best
        else best)
      = (fun best rc =>
        if g.isSquareEmpty rc.1 rc.2 then
          Score.max (value { g with board := g.board.set rc.1 rc.2 2 } false) best
        else best) := by
    funext best rc
    by_cases he : g.isSquareEmpty rc.1 rc.2 = true
    · have h0 : g.board.get rc.1 rc.2 = 0 := by simpa [isSquareEmpty] using he
      have hc := countEmpty_set g.board rc.1 rc.2 2 h0 (by decide)
      simp only [he, if_true, value, hc]
    · simp only [he, if_false, Bool.false_eq_true]
  have hmin : (fun (best : Score) (rc : Fin 3 × Fin 3) =>
        if g.isSquareEmpty rc.1 rc.2 then
          Score.min (valueFuel (countEmpty g.board)
            { g with board := g.board.set rc.1 rc.2 1 } true) best
        else best)
      = (fun best rc =>
        if g.isSquareEmpty rc.1 rc.2 then
          Score.min (value { g with board := g.board.set rc.1 rc.2 1 } true) best
        else best) := by
    funext best rc
    by_cases he : g.isSquareEmpty rc.1 rc.2 = true
    · have h0 : g.board.get rc.1 rc.2 = 0 := by simpa [isSquareEmpty] using he
      have hc := countEmpty_set g.board rc.1 rc.2 1 h0 (by decide)
      simp only [he, if_true, value, hc]
    · simp only [he, if_false, Bool.false_eq_true]
  show valueFuel (countEmpty g.board + 1) g m = _
  rw [valueFuel, hmax, hmin]

end Game

namespace Game

/-! ## The checker `drawN` is sound -/

theorem checkWin_ofCells (a0 a1 a2 a3 a4 a5 a6 a7 a8 q : Nat) (p : Int) (o : Bool) :
    (ofCells a0 a1 a2 a3 a4 a5 a6 a7 a8 p o).checkWin (q : Int)
      = winN a0 a1 a2 a3 a4 a5 a6 a7 a8 q := by
  rw [Bool.eq_iff_iff]
  simp only [checkWin, ofCells, rows, cols, Board.get, winN, List.any_cons, List.any_nil,
    Bool.or_false, Bool.or_eq_true, Bool.and_eq_true, decide_eq_true_eq, Nat.cast_inj,
    Nat.beq_eq, and_assoc, or_assoc]

theorem isBoardFull_ofCells (a0 a1 a2 a3 a4 a5 a6 a7 a8 : Nat) (p : Int) (o : Bool) :
    (ofCells a0 a1 a2 a3 a4 a5 a6 a7 a8 p o).isBoardFull
      = fullN a0 a1 a2 a3 a4 a5 a6 a7 a8 := by
  rw [Bool.eq_iff_iff]
  simp only [isBoardFull, ofCells, rows, cols, Board.get, fullN, List.all_cons, List.all_nil,
    Bool.and_true, Bool.and_eq_true, Bool.not_eq_true', decide_eq_false_iff_not,
    Bool.or_eq_false_iff, Nat.cast_eq_zero, and_assoc]
  simp only [← Bool.not_eq_true, Nat.beq_eq]

end Game

namespace Game

/-- A lower bound on one Computer move is a lower bound on the maximizing loop. -/
theorem le_maxLoop (g : Game) (f : Nat) (r c : Fin 3) (z : Score)
    (he : g.isSquareEmpty r c = true)
    (h : Score.le z (valueFuel f { g with board := g.board.set r c 2 } false) = true) :
    Score.le z (cells.foldl (fun best rc =>
      if g.isSquareEmpty rc.1 rc.2 then
        Score.max (valueFuel f { g with board := g.board.set rc.1 rc.2 2 } false) best
      else best) Score.negInf) = true :=
  Score.le_trans h
    ((le_foldMax (fun rc => g.isSquareEmpty rc.1 rc.2)
      (fun rc => valueFuel f { g with board := g.board.set rc.1 rc.2 2 } false)
      cells Score.negInf).2 (r, c) (mem_cells _) he)

/-- The checker is sound: when `drawN` accepts a position, its search value
with the same budget is at least 0. -/
theorem drawN_sound (fuel : Nat) :
    ∀ (a0 a1 a2 a3 a4 a5 a6 a7 a8 : Nat) (m : Bool) (p : Int) (o : Bool),
      drawN fuel a0 a1 a2 a3 a4 a5 a6 a7 a8 m = true →
      Score.le (Score.fin 0) (valueFuel fuel (ofCells a0 a1 a2 a3 a4 a5 a6 a7 a8 p o) m)
        = true := by
  induction fuel with
  | zero =>
    intro a0 a1 a2 a3 a4 a5 a6 a7 a8 m p o h
    simp [drawN] at h
  | succ f ih =>
    intro a0 a1 a2 a3 a4 a5 a6 a7 a8 m p o h
    have e2 : (ofCells a0 a1 a2 a3 a4 a5 a6 a7 a8 p o).checkWin 2
        = winN a0 a1 a2 a3 a4 a5 a6 a7 a8 2 := by
      simpa using checkWin_ofCells a0 a1 a2 a3 a4 a5 a6 a7 a8 2 p o
    have e1 : (ofCells a0 a1 a2 a3 a4 a5 a6 a7 a8 p o).checkWin 1
        = winN a0 a1 a2 a3 a4 a5 a6 a7 a8 1 := by
      simpa using checkWin_ofCells a0 a1 a2 a3 a4 a5 a6 a7 a8 1 p o
    have ef := isBoardFull_ofCells a0 a1 a2 a3 a4 a5 a6 a7 a8 p o
    rw [drawN] at h
    rw [valueFuel, e2, e1, ef]
    cases h2 : winN a0 a1 a2 a3 a4 a5 a6 a7 a8 2 with
    | true => simp [Score.le_posInf]
    | false =>
      rw [h2, Bool.false_or] at h
      cases h1 : winN a0 a1 a2 a3 a4 a5 a6 a7 a8 1 with
      | true => rw [h1] at h; simp at h
      | false =>
        rw [h1, Bool.not_false, Bool.true_and] at h
        cases hf : fullN a0 a1 a2 a3 a4 a5 a6 a7 a8 with
        | true => simp [Score.le_refl]
        | false =>
          rw [hf, Bool.false_or] at h
          simp only [Bool.false_eq_true, if_false]
          cases m with
          | true =>
            simp only [cond_true, Bool.or_eq_true, Bool.and_eq_true, Nat.beq_eq] at h
            simp only [if_true]
            rcases h with ⟨h0, hr⟩ | ⟨h0, hr⟩ | ⟨h0, hr⟩ | ⟨h0, hr⟩ | ⟨h0, hr⟩ | ⟨h0, hr⟩ |
              ⟨h0, hr⟩ | ⟨h0, hr⟩ | ⟨h0, hr⟩
            · exact le_maxLoop _ f 1 1 _ (by simp [isSquareEmpty, ofCells, Board.get, h0])
                (ih _ _ _ _ _ _ _ _ _ _ p o hr)
            · exact le_maxLoop _ f 0 0 _ (by simp [isSquareEmpty, ofCells, Board.get, h0])
                (ih _ _ _ _ _ _ _ _ _ _ p o hr)
            · exact le_maxLoop _ f 0 2 _ (by simp [isSquareEmpty, ofCells, Board.get, h0])
                (ih _ _ _ _ _ _ _ _ _ _ p o hr)
            · exact le_maxLoop _ f 2 0 _ (by simp [isSquareEmpty, ofCells, Board.get, h0])
                (ih _ _ _ _ _ _ _ _ _ _ p o hr)
            · exact le_maxLoop _ f 2 2 _ (by simp [isSquareEmpty, ofCells, Board.get, h0])
                (ih _ _ _ _ _ _ _ _ _ _ p o hr)
            · exact le_maxLoop _ f 0 1 _ (by simp [isSquareEmpty, ofCells, Board.get, h0])
                (ih _ _ _ _ _ _ _ _ _ _ p o hr)
            · exact le_maxLoop _ f 1 0 _ (by simp [isSquareEmpty, ofCells, Board.get, h0])
                (ih _ _ _ _ _ _ _ _ _ _ p o hr)
            · exact le_maxLoop _ f 1 2 _ (by simp [isSquareEmpty, ofCells, Board.get, h0])
                (ih _ _ _ _ _ _ _ _ _ _ p o hr)
            · exact le_maxLoop _ f 2 1 _ (by simp [isSquareEmpty, ofCells, Board.get, h0])
                (ih _ _ _ _ _ _ _ _ _ _ p o hr)
          | false =>
            simp only [cond_false, Bool.and_eq_true, Bool.or_eq_true, Bool.not_eq_true',
              Nat.beq_eq] at h
            obtain ⟨h0, h1', h2', h3, h4, h5, h6, h7, h8⟩ := h
            simp only [Bool.false_eq_true, if_false]
            apply le_foldMin (fun rc => (ofCells a0 a1 a2 a3 a4 a5 a6 a7 a8 p o).isSquareEmpty rc.1 rc.2)
              (fun rc => valueFuel f
                { ofCells a0 a1 a2 a3 a4 a5 a6 a7 a8 p o with
                  board := (ofCells a0 a1 a2 a3 a4 a5 a6 a7 a8 p o).board.set rc.1 rc.2 1 } true)
              cells Score.posInf (Score.fin 0) (Score.le_posInf _)
            intro rc _ hp
            obtain ⟨r, c⟩ := rc
            fin_cases r <;> fin_cases c
            · have he : a0 = 0 := by simpa [isSquareEmpty, ofCells, Board.get] using hp
              exact ih _ _ _ _ _ _ _ _ _ _ p o (h0.resolve_left (by simp [he]))
            · have he : a1 = 0 := by simpa [isSquareEmpty, ofCells, Board.get] using hp
              exact ih _ _ _ _ _ _ _ _ _ _ p o (h1'.resolve_left (by simp [he]))
            · have he : a2 = 0 := by simpa [isSquareEmpty, ofCells, Board.get] using hp
              exact ih _ _ _ _ _ _ _ _ _ _ p o (h2'.resolve_left (by simp [he]))
            · have he : a3 = 0 := by simpa [isSquareEmpty, ofCells, Board.get] using hp
              exact ih _ _ _ _ _ _ _ _ _ _ p o (h3.resolve_left (by simp [he]))
            · have he : a4 = 0 := by simpa [isSquareEmpty, ofCells, Board.get] using hp
              exact ih _ _ _ _ _ _ _ _ _ _ p o (h4.resolve_left (by simp [he]))
            · have he : a5 = 0 := by simpa [isSquareEmpty, ofCells, Board.get] using hp
              exact ih _ _ _ _ _ _ _ _ _ _ p o (h5.resolve_left (by simp [he]))
            · have he : a6 = 0 := by simpa [isSquareEmpty, ofCells, Board.get] using hp
              exact ih _ _ _ _ _ _ _ _ _ _ p o (h6.resolve_left (by simp [he]))
            · have he : a7 = 0 := by simpa [isSquareEmpty, ofCells, Board.get] using hp
              exact ih _ _ _ _ _ _ _ _ _ _ p o (h7.resolve_left (by simp [he]))
            · have he : a8 = 0 := by simpa [isSquareEmpty, ofCells, Board.get] using hp
              exact ih _ _ _ _ _ _ _ _ _ _ p o (h8.resolve_left (by simp [he]))

end Game

namespace Game

/-! ## The invariant of play -/

/-- The search value of the opening position, Human to move, is at least 0:
the checker accepts the empty board. -/
theorem newGame_value : Score.le (Score.fin 0) (value NewGame false) = true := by
  have h := drawN_sound 10 0 0 0 0 0 0 0 0 0 false 1 false (by decide!)
  have hc : countEmpty NewGame.board + 1 = 10 := by decide
  have hg : NewGame = ofCells 0 0 0 0 0 0 0 0 0 1 false := rfl
  unfold value
  rw [hc, hg]
  exact h

theorem safe_NewGame : Safe NewGame :=
  ⟨by decide, fun _ => ⟨rfl, by decide, newGame_value⟩⟩

theorem not_le_negInf : Score.le (Score.fin 0) Score.negInf = false := by decide

/-- An accepted Human move from a safe position, followed by the reply of
`bestMove` and the end-of-game checks, gives a safe position. -/
theorem safe_playCell (b : Board) (r c : Fin 3) (hs : Safe ⟨b, 1, false⟩)
    (hempty : b.get r c = 0) : Safe (playCell ⟨b, 1, false⟩ r c) := by
  obtain ⟨hw1, hrest⟩ := hs
  obtain ⟨_, hw2, hval⟩ := hrest rfl
  have he : (⟨b, 1, false⟩ : Game).isSquareEmpty r c = true := by
    simp [isSquareEmpty, hempty]
  have hnf : (⟨b, 1, false⟩ : Game).isBoardFull = false := by
    cases hf : (⟨b, 1, false⟩ : Game).isBoardFull with
    | false => rfl
    | true => exact absurd hempty ((isBoardFull_iff _).1 hf r c)
  -- the Human's move keeps the value at least 0
  have hu := value_unfold ⟨b, 1, false⟩ false
  rw [hw2, hw1, hnf] at hu
  simp only [Bool.false_eq_true, if_false] at hu
  have hB : Score.le (Score.fin 0) (value ⟨b.set r c 1, 1, false⟩ true) = true := by
    refine Score.le_trans hval ?_
    rw [hu]
    exact (foldMin_le (fun rc => (⟨b, 1, false⟩ : Game).isSquareEmpty rc.1 rc.2)
      (fun rc => value ⟨b.set rc.1 rc.2 1, 1, false⟩ true) cells Score.posInf).2
      (r, c) (mem_cells _) he
  have hA : (⟨b.set r c 1, 1, false⟩ : Game).checkWin 2 = false := by
    cases h : (⟨b.set r c 1, 1, false⟩ : Game).checkWin 2 with
    | false => rfl
    | true =>
      have := checkWin_set_ne ⟨b, 1, false⟩ r c 1 2 (by decide) h
      rw [hw2] at this
      exact absurd this (by decide)
  have hu1 := value_unfold ⟨b.set r c 1, 1, false⟩ true
  rw [hA] at hu1
  have hC : (⟨b.set r c 1, 1, false⟩ : Game).checkWin 1 = false := by
    cases h : (⟨b.set r c 1, 1, false⟩ : Game).checkWin 1 with
    | false => rfl
    | true =>
      rw [h] at hu1
      simp only [Bool.false_eq_true, if_false, if_true] at hu1
      rw [hu1, not_le_negInf] at hB
      exact absurd hB (by decide)
  rw [hC] at hu1
  simp only [Bool.false_eq_true, if_false, if_true] at hu1
  have hC' : (⟨b.set r c 1, 2, false⟩ : Game).checkWin 1 = false := hC
  have hmove : ∀ r' c', moveScore ⟨b.set r c 1, 2, false⟩ r' c'
      = value ⟨(b.set r c 1).set r' c' 2, 1, false⟩ false := by
    intro r' c'
    rw [moveScore_eq]
    exact value_congr _ _ _ _ _ _
  have hw21 : wrap64 2 = 2 := by decide
  have hw11 : wrap64 1 = 1 := by decide
  rcases bestMove_cases ⟨b.set r c 1, 2, false⟩ with ⟨hbm, hall⟩ | ⟨r2, c2, hbm, h0, _, hmax, _⟩
  · -- no move is selected: the board must be full
    have hfull : (⟨b.set r c 1, 1, false⟩ : Game).isBoardFull = true := by
      cases hf : (⟨b.set r c 1, 1, false⟩ : Game).isBoardFull with
      | true => rfl
      | false =>
        rw [hf] at hu1
        simp only [Bool.false_eq_true, if_false] at hu1
        have hle : Score.le (value ⟨b.set r c 1, 1, false⟩ true) Score.negInf = true := by
          rw [hu1]
          apply foldMax_le (fun rc => (⟨b.set r c 1, 1, false⟩ : Game).isSquareEmpty rc.1 rc.2)
            (fun rc => value ⟨(b.set r c 1).set rc.1 rc.2 2, 1, false⟩ false)
            cells Score.negInf Score.negInf (Score.le_refl _)
          intro rc _ hp
          have h0 : (b.set r c 1).get rc.1 rc.2 = 0 := by simpa [isSquareEmpty] using hp
          have := hall rc.1 rc.2 h0
          rw [hmove] at this
          show Score.le (value ⟨(b.set r c 1).set rc.1 rc.2 2, 1, false⟩ false) Score.negInf = true
          rw [this]; rfl
        have := Score.le_trans hB hle
        rw [not_le_negInf] at this
        exact absurd this (by decide)
    have hfull' : (⟨b.set r c 1, 2, false⟩ : Game).isBoardFull = true := hfull
    have hres : playCell ⟨b, 1, false⟩ r c = ⟨b.set r c 1, 2, true⟩ := by
      simp [playCell, isSquareEmpty, hempty, markSquare, hC, hw21, hbm, hfull']
    rw [hres]
    exact ⟨hC, fun h => by cases h⟩
  · -- the selected move keeps the value at least 0
    have hD : (⟨(b.set r c 1).set r2 c2 2, 2, false⟩ : Game).checkWin 1 = false := by
      cases h : (⟨(b.set r c 1).set r2 c2 2, 2, false⟩ : Game).checkWin 1 with
      | false => rfl
      | true =>
        have := checkWin_set_ne ⟨b.set r c 1, 2, false⟩ r2 c2 2 1 (by decide) h
        rw [hC'] at this
        exact absurd this (by decide)
    have hnf1 : (⟨b.set r c 1, 1, false⟩ : Game).isBoardFull = false := by
      cases hf : (⟨b.set r c 1, 1, false⟩ : Game).isBoardFull with
      | false => rfl
      | true => exact absurd h0 ((isBoardFull_iff _).1 hf r2 c2)
    rw [hnf1] at hu1
    simp only [Bool.false_eq_true, if_false] at hu1
    have hval2 : Score.le (Score.fin 0)
        (value ⟨(b.set r c 1).set r2 c2 2, 1, false⟩ false) = true := by
      refine Score.le_trans hB ?_
      rw [hu1, ← hmove r2 c2]
      apply foldMax_le (fun rc => (⟨b.set r c 1, 1, false⟩ : Game).isSquareEmpty rc.1 rc.2)
        (fun rc => value ⟨(b.set r c 1).set rc.1 rc.2 2, 1, false⟩ false)
        cells Score.negInf _ (Score.negInf_le _)
      intro rc _ hp
      have h0' : (b.set r c 1).get rc.1 rc.2 = 0 := by simpa [isSquareEmpty] using hp
      have := hmax rc.1 rc.2 h0'
      rw [hmove rc.1 rc.2] at this
      exact this
    by_cases hwin : (⟨(b.set r c 1).set r2 c2 2, 2, false⟩ : Game).checkWin 2 = true
    · have hres : playCell ⟨b, 1, false⟩ r c = ⟨(b.set r c 1).set r2 c2 2, 1, true⟩ := by
        simp [playCell, isSquareEmpty, hempty, markSquare, hC, hw21, hw11, hbm, hwin]
      rw [hres]
      exact ⟨hD, fun h => by cases h⟩
    · have hwin' : (⟨(b.set r c 1).set r2 c2 2, 2, false⟩ : Game).checkWin 2 = false := by
        simpa using hwin
      by_cases hf2 : (⟨(b.set r c 1).set r2 c2 2, 1, false⟩ : Game).isBoardFull = true
      · have hres : playCell ⟨b, 1, false⟩ r c = ⟨(b.set r c 1).set r2 c2 2, 1, true⟩ := by
          simp [playCell, isSquareEmpty, hempty, markSquare, hC, hw21, hw11, hbm, hwin', hf2]
        rw [hres]
        exact ⟨hD, fun h => by cases h⟩
      · have hres : playCell ⟨b, 1, false⟩ r c = ⟨(b.set r c 1).set r2 c2 2, 1, false⟩ := by
          simp [playCell, isSquareEmpty, hempty, markSquare, hC, hw21, hw11, hbm, hwin', hf2]
        rw [hres]
        exact ⟨hD, fun _ => ⟨rfl, hwin', hval2⟩⟩

/-- The invariant `Safe` is preserved by every human-move step. -/
theorem safe_humanMove (g : Game) (row col : Int) (hs : Safe g) :
    Safe (g.humanMove row col) := by
  rw [humanMove_eq]
  by_cases hover : g.gameOver = true
  · simpa [hover] using hs
  · have hover' : g.gameOver = false := by simpa using hover
    simp only [hover', Bool.false_eq_true, if_false]
    rcases cell_cases row col with hout | ⟨r, c, hr, hc⟩
    · rw [clickCell_out g row col hout]; exact hs
    · rw [← hr, ← hc, clickCell_fin]
      by_cases hempty : g.board.get r c = 0
      · obtain ⟨b, p, o⟩ := g
        have hp : p = 1 := (hs.2 hover').1
        simp only at hover'
        subst hp hover'
        exact safe_playCell b r c hs hempty
      · have : g.playCell r c = g := by simp [playCell, isSquareEmpty, hempty]
        rw [this]; exact hs

/-- Every reachable state satisfies the invariant `Safe`. -/
theorem safe_of_reachable (g : Game) (h : Reachable g) : Safe g := by
  induction h with
  | init => exact safe_NewGame
  | move g row col _ ih => exact safe_humanMove g row col ih
  | restart g _ _ => exact safe_NewGame

end Game

namespace Game

/-! ## The search returns one of three outcomes -/

theorem isOutcome_max {x y : Score} (hx : isOutcome x) (hy : isOutcome y) :
    isOutcome (Score.max x y) := by
  unfold Score.max; split <;> assumption

theorem isOutcome_min {x y : Score} (hx : isOutcome x) (hy : isOutcome y) :
    isOutcome (Score.min x y) := by
  unfold Score.min; split <;> assumption

/-- A property of the start value that every pass of a loop preserves holds of
the result of the loop. -/
theorem foldl_preserves {α β : Type} (P : β → Prop) (body : β → α → β) (l : List α)
    (init : β) (hinit : P init) (hstep : ∀ b a, P b → P (body b a)) :
    P (l.foldl body init) := by
  induction l generalizing init with
  | nil => exact hinit
  | cons a l ih => exact ih _ (hstep _ _ hinit)

theorem valueFuel_isOutcome (fuel : Nat) (g : Game) (m : Bool) :
    isOutcome (valueFuel fuel g m) := by
  induction fuel generalizing g m with
  | zero => exact Or.inr (Or.inl rfl)
  | succ f ih =>
    rw [valueFuel]
    split
    · exact Or.inr (Or.inr rfl)
    split
    · exact Or.inl rfl
    split
    · exact Or.inr (Or.inl rfl)
    split
    · apply foldl_preserves isOutcome _ _ _ (Or.inl rfl)
      intro b a hb
      split
      · exact isOutcome_max (ih _ _) hb
      · exact hb
    · apply foldl_preserves isOutcome _ _ _ (Or.inr (Or.inr rfl))
      intro b a hb
      split
      · exact isOutcome_min (ih _ _) hb
      · exact hb

theorem countEmpty_le (b : Board) : countEmpty b ≤ 9 := by
  unfold countEmpty
  exact (List.length_filter_le _ _).trans (by decide)

end Game

namespace Game

/-! ## The shape of an accepted move -/

theorem checkWin_board (b : Board) (p p' : Int) (o o' : Bool) (q : Int) :
    (⟨b, p, o⟩ : Game).checkWin q = (⟨b, p', o'⟩ : Game).checkWin q := rfl

theorem isBoardFull_board (b : Board) (p p' : Int) (o o' : Bool) :
    (⟨b, p, o⟩ : Game).isBoardFull = (⟨b, p', o'⟩ : Game).isBoardFull := rfl

/-- What lines 63-83 of `Update` do on an in-progress state with player `p`
and the cell `(r, c)` empty: either the mark wins and the game ends without a
reply; or `bestMove` reports no move and only the full-board check runs; or
`bestMove` marks an empty cell and both end-of-game checks run. -/
theorem playCell_shape (b : Board) (p : Int) (r c : Fin 3) (hempty : b.get r c = 0) :
    ((⟨b.set r c p, p, false⟩ : Game).checkWin p = true ∧
      playCell ⟨b, p, false⟩ r c = ⟨b.set r c p, wrap64 (3 - p), true⟩) ∨
    ((⟨b.set r c p, p, false⟩ : Game).checkWin p = false ∧
      bestMove ⟨b.set r c p, wrap64 (3 - p), false⟩
        = (false, ⟨b.set r c p, wrap64 (3 - p), false⟩) ∧
      playCell ⟨b, p, false⟩ r c
        = ⟨b.set r c p, wrap64 (3 - p), (⟨b.set r c p, p, false⟩ : Game).isBoardFull⟩) ∨
    ((⟨b.set r c p, p, false⟩ : Game).checkWin p = false ∧
      ∃ r2 c2, (b.set r c p).get r2 c2 = 0 ∧
        bestMove ⟨b.set r c p, wrap64 (3 - p), false⟩
          = (true, ⟨(b.set r c p).set r2 c2 2, wrap64 (3 - p), false⟩) ∧
        playCell ⟨b, p, false⟩ r c
          = ⟨(b.set r c p).set r2 c2 2, wrap64 (3 - wrap64 (3 - p)),
              (⟨(b.set r c p).set r2 c2 2, p, false⟩ : Game).checkWin 2 ||
                (⟨(b.set r c p).set r2 c2 2, p, false⟩ : Game).isBoardFull⟩) := by
  cases hwin : (⟨b.set r c p, p, false⟩ : Game).checkWin p with
  | true =>
    left
    refine ⟨rfl, ?_⟩
    simp [playCell, isSquareEmpty, hempty, markSquare, hwin]
  | false =>
    right
    rcases bestMove_cases ⟨b.set r c p, wrap64 (3 - p), false⟩ with
      ⟨hbm, _⟩ | ⟨r2, c2, hbm, h0, _, _, _⟩
    · left
      refine ⟨rfl, hbm, ?_⟩
      have hf : (⟨b.set r c p, wrap64 (3 - p), false⟩ : Game).isBoardFull
          = (⟨b.set r c p, p, false⟩ : Game).isBoardFull := rfl
      cases hfull : (⟨b.set r c p, p, false⟩ : Game).isBoardFull with
      | true =>
        rw [hfull] at hf
        simp [playCell, isSquareEmpty, hempty, markSquare, hwin, hbm, hf]
      | false =>
        rw [hfull] at hf
        simp [playCell, isSquareEmpty, hempty, markSquare, hwin, hbm, hf]
    · right
      refine ⟨rfl, r2, c2, h0, hbm, ?_⟩
      have hw : ∀ q : Int, (⟨(b.set r c p).set r2 c2 2, wrap64 (3 - p), false⟩ : Game).checkWin 2
          = (⟨(b.set r c p).set r2 c2 2, q, false⟩ : Game).checkWin 2 := fun _ => rfl
      have hf : ∀ (q : Int) (o : Bool),
          (⟨(b.set r c p).set r2 c2 2, q, o⟩ : Game).isBoardFull
          = (⟨(b.set r c p).set r2 c2 2, p, false⟩ : Game).isBoardFull := fun _ _ => rfl
      cases hwin2 : (⟨(b.set r c p).set r2 c2 2, p, false⟩ : Game).checkWin 2 with
      | true =>
        have hw' := hw p
        rw [hwin2] at hw'
        simp [playCell, isSquareEmpty, hempty, markSquare, hwin, hbm, hw']
      | false =>
        have hw' := hw p
        rw [hwin2] at hw'
        cases hfull : (⟨(b.set r c p).set r2 c2 2, p, false⟩ : Game).isBoardFull with
        | true =>
          simp [playCell, isSquareEmpty, hempty, markSquare, hwin, hbm, hw', hf, hfull]
        | false =>
          simp [playCell, isSquareEmpty, hempty, markSquare, hwin, hbm, hw', hf, hfull]

end Game

namespace Game

/-! ## Counting marks -/

/-- Writing the mark `p` on an empty cell adds one cell of `p`. -/
theorem countMark_set_same (b : Board) (r c : Fin 3) (p : Int) (h : b.get r c = 0)
    (hp : p ≠ 0) : countMark (b.set r c p) p = countMark b p + 1 := by
  unfold countMark
  symm
  apply countP_flip cells (r, c) _ _ cells_nodup (mem_cells _)
  · simp [Board.get_set]
  · simp [h, hp.symm]
  · intro y hy
    have : ¬ (y.1 = r ∧ y.2 = c) := fun e => hy (Prod.ext e.1 e.2)
    simp [Board.get_set, this]

/-- Writing a mark other than `q` on an empty cell leaves the count of `q`. -/
theorem countMark_set_other (b : Board) (r c : Fin 3) (v q : Int) (h : b.get r c = 0)
    (hq : q ≠ 0) (hv : v ≠ q) : countMark (b.set r c v) q = countMark b q := by
  unfold countMark
  congr 1
  apply List.filter_congr
  intro y _
  by_cases e : y.1 = r ∧ y.2 = c
  · obtain ⟨e1, e2⟩ := e
    simp [Board.get_set, e1, e2, h, hv, hq.symm]
  · simp [Board.get_set, e]

theorem cells_set (b : Board) (r c : Fin 3) (v : Int) (hv : v = 0 ∨ v = 1 ∨ v = 2)
    (h : ∀ r' c', b.get r' c' = 0 ∨ b.get r' c' = 1 ∨ b.get r' c' = 2) :
    ∀ r' c', (b.set r c v).get r' c' = 0 ∨ (b.set r c v).get r' c' = 1 ∨
      (b.set r c v).get r' c' = 2 := by
  intro r' c'
  rw [Board.get_set]
  split
  · exact hv
  · exact h r' c'

/-! ## The second invariant of play -/

theorem settled_NewGame : Settled NewGame := by
  refine ⟨?_, ?_, ?_, ?_⟩ <;> decide

/-- An accepted Human move from a settled position gives a settled position,
provided the position it gives is safe. -/
theorem settled_playCell (b : Board) (r c : Fin 3) (hempty : b.get r c = 0)
    (hs' : Safe (playCell ⟨b, 1, false⟩ r c))
    (hj : Settled ⟨b, 1, false⟩) : Settled (playCell ⟨b, 1, false⟩ r c) := by
  obtain ⟨_, hcells, hcnt, _⟩ := hj
  have hcnt0 : countMark b 1 = countMark b 2 := hcnt rfl
  have hc1 : countMark (b.set r c 1) 1 = countMark b 1 + 1 :=
    countMark_set_same b r c 1 hempty (by decide)
  have hc2 : countMark (b.set r c 1) 2 = countMark b 2 :=
    countMark_set_other b r c 1 2 hempty (by decide) (by decide)
  have hcells1 := cells_set b r c 1 (Or.inr (Or.inl rfl)) hcells
  have hw21 : wrap64 (3 - 1) = 2 := by decide
  have hw11 : wrap64 (3 - wrap64 (3 - 1)) = 1 := by decide
  rcases playCell_shape b 1 r c hempty with ⟨hwin, hres⟩ | ⟨_, _, hres⟩ |
    ⟨_, r2, c2, h0, _, hres⟩
  · rw [hres]
    refine ⟨⟨fun _ => Or.inl hwin, fun _ => rfl⟩, hcells1, (fun h => by cases h), ?_⟩
    right
    show countMark (b.set r c 1) 1 = countMark (b.set r c 1) 2 + 1
    omega
  · rw [hw21] at hres
    have hover : (⟨b.set r c 1, 1, false⟩ : Game).isBoardFull = true := by
      cases hf : (⟨b.set r c 1, 1, false⟩ : Game).isBoardFull with
      | true => rfl
      | false =>
        rw [hres, hf] at hs'
        have h21 : (2 : Int) = 1 := (hs'.2 rfl).1
        exact absurd h21 (by decide)
    rw [hres, hover]
    refine ⟨⟨fun _ => Or.inr (Or.inr hover), fun _ => rfl⟩, hcells1, (fun h => by cases h), ?_⟩
    right
    show countMark (b.set r c 1) 1 = countMark (b.set r c 1) 2 + 1
    omega
  · rw [hw11] at hres
    have hd1 : countMark ((b.set r c 1).set r2 c2 2) 1 = countMark (b.set r c 1) 1 :=
      countMark_set_other _ r2 c2 2 1 h0 (by decide) (by decide)
    have hd2 : countMark ((b.set r c 1).set r2 c2 2) 2 = countMark (b.set r c 1) 2 + 1 :=
      countMark_set_same _ r2 c2 2 h0 (by decide)
    have hno1 : (⟨(b.set r c 1).set r2 c2 2, 1, false⟩ : Game).checkWin 1 = false := by
      have := hs'.1
      rw [hres] at this
      exact this
    rw [hres]
    have heq : countMark ((b.set r c 1).set r2 c2 2) 1
        = countMark ((b.set r c 1).set r2 c2 2) 2 := by omega
    refine ⟨⟨?_, ?_⟩, cells_set _ r2 c2 2 (Or.inr (Or.inr rfl)) hcells1,
      fun _ => heq, Or.inl heq⟩
    · intro h
      have h' : ((⟨(b.set r c 1).set r2 c2 2, 1, false⟩ : Game).checkWin 2 ||
          (⟨(b.set r c 1).set r2 c2 2, 1, false⟩ : Game).isBoardFull) = true := h
      rw [Bool.or_eq_true] at h'
      exact Or.inr h'
    · intro h
      show ((⟨(b.set r c 1).set r2 c2 2, 1, false⟩ : Game).checkWin 2 ||
          (⟨(b.set r c 1).set r2 c2 2, 1, false⟩ : Game).isBoardFull) = true
      rw [Bool.or_eq_true]
      rcases h with h | h
      · have h1 : (⟨(b.set r c 1).set r2 c2 2, 1, false⟩ : Game).checkWin 1 = true := h
        rw [hno1] at h1
        cases h1
      · exact h

/-- The invariant `Settled` is preserved by every human-move step from a safe
position. -/
theorem settled_humanMove (g : Game) (row col : Int) (hs : Safe g)
    (hj : Settled g) : Settled (g.humanMove row col) := by
  have hs' := safe_humanMove g row col hs
  rw [humanMove_eq] at hs' ⊢
  by_cases hover : g.gameOver = true
  · simpa [hover] using hj
  · have hover' : g.gameOver = false := by simpa using hover
    simp only [hover', Bool.false_eq_true, if_false] at hs' ⊢
    rcases cell_cases row col with hout | ⟨r, c, hr, hc⟩
    · rw [clickCell_out g row col hout]; exact hj
    · rw [← hr, ← hc, clickCell_fin] at hs' ⊢
      by_cases hempty : g.board.get r c = 0
      · obtain ⟨b, p, o⟩ := g
        have hp : p = 1 := (hs.2 hover').1
        simp only at hover'
        subst hp hover'
        exact settled_playCell b r c hempty hs' hj
      · have : g.playCell r c = g := by simp [playCell, isSquareEmpty, hempty]
        rw [this]; exact hj

/-- Every reachable state satisfies the invariant `Settled`. -/
theorem settled_of_reachable (g : Game) (h : Reachable g) : Settled g := by
  induction h with
  | init => exact settled_NewGame
  | move g row col hg ih => exact settled_humanMove g row col (safe_of_reachable g hg) ih
  | restart g _ _ => exact settled_NewGame

/-- A move on an in-progress state leaves every non-empty cell as it was, and
leaves the mark of the player on the requested cell when that mark is not 0. -/
theorem playCell_keeps (b : Board) (p : Int) (r c : Fin 3) (hempty : b.get r c = 0) :
    (∀ r' c', b.get r' c' ≠ 0 →
        (playCell ⟨b, p, false⟩ r c).board.get r' c' = b.get r' c') ∧
      (p ≠ 0 → (playCell ⟨b, p, false⟩ r c).board.get r c = p) := by
  have hb1 : ∀ r' c', b.get r' c' ≠ 0 → (b.set r c p).get r' c' = b.get r' c' := by
    intro r' c' hne
    rw [Board.get_set, if_neg]
    rintro ⟨e1, e2⟩
    rw [e1, e2] at hne
    exact hne hempty
  have hb2 : ∀ r2 c2 r' c', (b.set r c p).get r2 c2 = 0 → (b.set r c p).get r' c' ≠ 0 →
      ((b.set r c p).set r2 c2 2).get r' c' = (b.set r c p).get r' c' := by
    intro r2 c2 r' c' h0 hne
    rw [Board.get_set, if_neg]
    rintro ⟨e1, e2⟩
    rw [e1, e2] at hne
    exact hne h0
  have hself : (b.set r c p).get r c = p := Board.get_set_self b r c p
  rcases playCell_shape b p r c hempty with ⟨_, hres⟩ | ⟨_, _, hres⟩ |
    ⟨_, r2, c2, h0, _, hres⟩
  · rw [hres]
    exact ⟨hb1, fun _ => hself⟩
  · rw [hres]
    exact ⟨hb1, fun _ => hself⟩
  · rw [hres]
    refine ⟨?_, ?_⟩
    · intro r' c' hne
      show ((b.set r c p).set r2 c2 2).get r' c' = b.get r' c'
      rw [hb2 r2 c2 r' c' h0 (by rw [hb1 r' c' hne]; exact hne), hb1 r' c' hne]
    · intro hp
      show ((b.set r c p).set r2 c2 2).get r c = p
      rw [hb2 r2 c2 r c h0 (by rw [hself]; exact hp), hself]

end Game

namespace Game

/-! ## The checker `capN` is sound -/

/-- An upper bound on one Human move is an upper bound on the minimizing loop. -/
theorem minLoop_le (g : Game) (f : Nat) (r c : Fin 3) (z : Score)
    (he : g.isSquareEmpty r c = true)
    (h : Score.le (valueFuel f { g with board := g.board.set r c 1 } true) z = true) :
    Score.le (cells.foldl (fun best rc =>
      if g.isSquareEmpty rc.1 rc.2 then
        Score.min (valueFuel f { g with board := g.board.set rc.1 rc.2 1 } true) best
      else best) Score.posInf) z = true :=
  Score.le_trans
    ((foldMin_le (fun rc => g.isSquareEmpty rc.1 rc.2)
      (fun rc => valueFuel f { g with board := g.board.set rc.1 rc.2 1 } true)
      cells Score.posInf).2 (r, c) (mem_cells _) he) h

theorem negInf_le_zero : Score.le Score.negInf (Score.fin 0) = true := by decide

/-- The checker is sound: when `capN` accepts a position, its search value
with the same budget is at most 0. -/
theorem capN_sound (fuel : Nat) :
    ∀ (a0 a1 a2 a3 a4 a5 a6 a7 a8 : Nat) (m : Bool) (p : Int) (o : Bool),
      capN fuel a0 a1 a2 a3 a4 a5 a6 a7 a8 m = true →
      Score.le (valueFuel fuel (ofCells a0 a1 a2 a3 a4 a5 a6 a7 a8 p o) m) (Score.fin 0)
        = true := by
  induction fuel with
  | zero =>
    intro a0 a1 a2 a3 a4 a5 a6 a7 a8 m p o h
    simp [capN] at h
  | succ f ih =>
    intro a0 a1 a2 a3 a4 a5 a6 a7 a8 m p o h
    have e2 : (ofCells a0 a1 a2 a3 a4 a5 a6 a7 a8 p o).checkWin 2
        = winN a0 a1 a2 a3 a4 a5 a6 a7 a8 2 := by
      simpa using checkWin_ofCells a0 a1 a2 a3 a4 a5 a6 a7 a8 2 p o
    have e1 : (ofCells a0 a1 a2 a3 a4 a5 a6 a7 a8 p o).checkWin 1
        = winN a0 a1 a2 a3 a4 a5 a6 a7 a8 1 := by
      simpa using checkWin_ofCells a0 a1 a2 a3 a4 a5 a6 a7 a8 1 p o
    have ef := isBoardFull_ofCells a0 a1 a2 a3 a4 a5 a6 a7 a8 p o
    rw [capN] at h
    rw [valueFuel, e2, e1, ef]
    cases h2 : winN a0 a1 a2 a3 a4 a5 a6 a7 a8 2 with
    | true => rw [h2] at h; simp at h
    | false =>
      rw [h2, Bool.not_false, Bool.true_and] at h
      cases h1 : winN a0 a1 a2 a3 a4 a5 a6 a7 a8 1 with
      | true => simp [negInf_le_zero]
      | false =>
        rw [h1, Bool.false_or] at h
        cases hf : fullN a0 a1 a2 a3 a4 a5 a6 a7 a8 with
        | true => simp [Score.le_refl]
        | false =>
          rw [hf, Bool.false_or] at h
          simp only [Bool.false_eq_true, if_false]
          cases m with
          | false =>
            simp only [cond_false, Bool.or_eq_true, Bool.and_eq_true, Nat.beq_eq] at h
            rcases h with ⟨h0, hr⟩ | ⟨h0, hr⟩ | ⟨h0, hr⟩ | ⟨h0, hr⟩ | ⟨h0, hr⟩ | ⟨h0, hr⟩ |
              ⟨h0, hr⟩ | ⟨h0, hr⟩ | ⟨h0, hr⟩
            · exact minLoop_le _ f 1 1 _ (by simp [isSquareEmpty, ofCells, Board.get, h0])
                (ih _ _ _ _ _ _ _ _ _ _ p o hr)
            · exact minLoop_le _ f 0 0 _ (by simp [isSquareEmpty, ofCells, Board.get, h0])
                (ih _ _ _ _ _ _ _ _ _ _ p o hr)
            · exact minLoop_le _ f 0 2 _ (by simp [isSquareEmpty, ofCells, Board.get, h0])
                (ih _ _ _ _ _ _ _ _ _ _ p o hr)
            · exact minLoop_le _ f 2 0 _ (by simp [isSquareEmpty, ofCells, Board.get, h0])
                (ih _ _ _ _ _ _ _ _ _ _ p o hr)
            · exact minLoop_le _ f 2 2 _ (by simp [isSquareEmpty, ofCells, Board.get, h0])
                (ih _ _ _ _ _ _ _ _ _ _ p o hr)
            · exact minLoop_le _ f 0 1 _ (by simp [isSquareEmpty, ofCells, Board.get, h0])
                (ih _ _ _ _ _ _ _ _ _ _ p o hr)
            · exact minLoop_le _ f 1 0 _ (by simp [isSquareEmpty, ofCells, Board.get, h0])
                (ih _ _ _ _ _ _ _ _ _ _ p o hr)
            · exact minLoop_le _ f 1 2 _ (by simp [isSquareEmpty, ofCells, Board.get, h0])
                (ih _ _ _ _ _ _ _ _ _ _ p o hr)
            · exact minLoop_le _ f 2 1 _ (by simp [isSquareEmpty, ofCells, Board.get, h0])
                (ih _ _ _ _ _ _ _ _ _ _ p o hr)
          | true =>
            simp only [cond_true, Bool.and_eq_true, Bool.or_eq_true, Bool.not_eq_true',
              Nat.beq_eq] at h
            obtain ⟨h0, h1', h2', h3, h4, h5, h6, h7, h8⟩ := h
            simp only [if_true]
            apply foldMax_le (fun rc => (ofCells a0 a1 a2 a3 a4 a5 a6 a7 a8 p o).isSquareEmpty rc.1 rc.2)
              (fun rc => valueFuel f
                { ofCells a0 a1 a2 a3 a4 a5 a6 a7 a8 p o with
                  board := (ofCells a0 a1 a2 a3 a4 a5 a6 a7 a8 p o).board.set rc.1 rc.2 2 } false)
              cells Score.negInf (Score.fin 0) negInf_le_zero
            intro rc _ hp
            obtain ⟨r, c⟩ := rc
            fin_cases r <;> fin_cases c
            · have he : a0 = 0 := by simpa [isSquareEmpty, ofCells, Board.get] using hp
              exact ih _ _ _ _ _ _ _ _ _ _ p o (h0.resolve_left (by simp [he]))
            · have he : a1 = 0 := by simpa [isSquareEmpty, ofCells, Board.get] using hp
              exact ih _ _ _ _ _ _ _ _ _ _ p o (h1'.resolve_left (by simp [he]))
            · have he : a2 = 0 := by simpa [isSquareEmpty, ofCells, Board.get] using hp
              exact ih _ _ _ _ _ _ _ _ _ _ p o (h2'.resolve_left (by simp [he]))
            · have he : a3 = 0 := by simpa [isSquareEmpty, ofCells, Board.get] using hp
              exact ih _ _ _ _ _ _ _ _ _ _ p o (h3.resolve_left (by simp [he]))
            · have he : a4 = 0 := by simpa [isSquareEmpty, ofCells, Board.get] using hp
              exact ih _ _ _ _ _ _ _ _ _ _ p o (h4.resolve_left (by simp [he]))
            · have he : a5 = 0 := by simpa [isSquareEmpty, ofCells, Board.get] using hp
              exact ih _ _ _ _ _ _ _ _ _ _ p o (h5.resolve_left (by simp [he]))
            · have he : a6 = 0 := by simpa [isSquareEmpty, ofCells, Board.get] using hp
              exact ih _ _ _ _ _ _ _ _ _ _ p o (h6.resolve_left (by simp [he]))
            · have he : a7 = 0 := by simpa [isSquareEmpty, ofCells, Board.get] using hp
              exact ih _ _ _ _ _ _ _ _ _ _ p o (h7.resolve_left (by simp [he]))
            · have he : a8 = 0 := by simpa [isSquareEmpty, ofCells, Board.get] using hp
              exact ih _ _ _ _ _ _ _ _ _ _ p o (h8.resolve_left (by simp [he]))

end Game

namespace Game

/-! ## The reply to the centre opening -/

theorem value_eq_valueFuel (g g' : Game) (f : Nat) (m : Bool) (hg : g = g')
    (hf : countEmpty g'.board + 1 = f) : value g m = valueFuel f g' m := by
  subst hg
  unfold value
  rw [hf]

theorem moveScore_eq_valueFuel (g : Game) (r c : Fin 3) (g' : Game) (f : Nat)
    (hg : ({ g with board := g.board.set r c 2 } : Game) = g')
    (hf : countEmpty g'.board + 1 = f) : moveScore g r c = valueFuel f g' false := by
  rw [moveScore_eq]
  exact value_eq_valueFuel _ g' f false hg hf

/-- On `centrePosition` the corner (0,0) scores at least 0. -/
theorem centre_corner_score :
    Score.le (Score.fin 0) (moveScore centrePosition 0 0) = true := by
  rw [moveScore_eq_valueFuel centrePosition 0 0 (ofCells 2 0 0 0 1 0 0 0 0 2 false) 8 rfl
    (by decide)]
  exact drawN_sound 8 2 0 0 0 1 0 0 0 0 false 2 false (by decide!)

/-- On `centrePosition` no empty cell scores above 0. -/
theorem centre_scores_le (r c : Fin 3) (h0 : centrePosition.board.get r c = 0) :
    Score.le (moveScore centrePosition r c) (Score.fin 0) = true := by
  fin_cases r <;> fin_cases c
  · show Score.le (moveScore centrePosition 0 0) (Score.fin 0) = true
    rw [moveScore_eq_valueFuel centrePosition 0 0 (ofCells 2 0 0 0 1 0 0 0 0 2 false) 8 rfl (by decide)]
    exact capN_sound 8 2 0 0 0 1 0 0 0 0 false 2 false (by decide!)
  · show Score.le (moveScore centrePosition 0 1) (Score.fin 0) = true
    rw [moveScore_eq_valueFuel centrePosition 0 1 (ofCells 0 2 0 0 1 0 0 0 0 2 false) 8 rfl (by decide)]
    exact capN_sound 8 0 2 0 0 1 0 0 0 0 false 2 false (by decide!)
  · show Score.le (moveScore centrePosition 0 2) (Score.fin 0) = true
    rw [moveScore_eq_valueFuel centrePosition 0 2 (ofCells 0 0 2 0 1 0 0 0 0 2 false) 8 rfl (by decide)]
    exact capN_sound 8 0 0 2 0 1 0 0 0 0 false 2 false (by decide!)
  · show Score.le (moveScore centrePosition 1 0) (Score.fin 0) = true
    rw [moveScore_eq_valueFuel centrePosition 1 0 (ofCells 0 0 0 2 1 0 0 0 0 2 false) 8 rfl (by decide)]
    exact capN_sound 8 0 0 0 2 1 0 0 0 0 false 2 false (by decide!)
  · exact absurd h0 (by decide)
  · show Score.le (moveScore centrePosition 1 2) (Score.fin 0) = true
    rw [moveScore_eq_valueFuel centrePosition 1 2 (ofCells 0 0 0 0 1 2 0 0 0 2 false) 8 rfl (by decide)]
    exact capN_sound 8 0 0 0 0 1 2 0 0 0 false 2 false (by decide!)
  · show Score.le (moveScore centrePosition 2 0) (Score.fin 0) = true
    rw [moveScore_eq_valueFuel centrePosition 2 0 (ofCells 0 0 0 0 1 0 2 0 0 2 false) 8 rfl (by decide)]
    exact capN_sound 8 0 0 0 0 1 0 2 0 0 false 2 false (by decide!)
  · show Score.le (moveScore centrePosition 2 1) (Score.fin 0) = true
    rw [moveScore_eq_valueFuel centrePosition 2 1 (ofCells 0 0 0 0 1 0 0 2 0 2 false) 8 rfl (by decide)]
    exact capN_sound 8 0 0 0 0 1 0 0 2 0 false 2 false (by decide!)
  · show Score.le (moveScore centrePosition 2 2) (Score.fin 0) = true
    rw [moveScore_eq_valueFuel centrePosition 2 2 (ofCells 0 0 0 0 1 0 0 0 2 2 false) 8 rfl (by decide)]
    exact capN_sound 8 0 0 0 0 1 0 0 0 2 false 2 false (by decide!)

theorem first_cell_precedes :
    ∀ rc : Fin 3 × Fin 3, rc ≠ (0, 0) → precedes (0, 0) rc := by
  unfold precedes; decide

/-- On `centrePosition`, `bestMove` marks the corner (0,0): it scores 0, no
cell scores more, and it is the first cell of the scan. -/
theorem bestMove_centrePosition :
    centrePosition.bestMove = (true, ⟨⟨2, 0, 0, 0, 1, 0, 0, 0, 0⟩, 2, false⟩) := by
  have h00 : centrePosition.board.get 0 0 = 0 := by decide
  rcases bestMove_cases centrePosition with ⟨_, hall⟩ | ⟨r, c, hbm, h0, _, _, hfirst⟩
  · have h := centre_corner_score
    rw [hall 0 0 h00, not_le_negInf] at h
    cases h
  · by_cases hrc : (r, c) = ((0 : Fin 3), (0 : Fin 3))
    · obtain ⟨hr, hc⟩ := Prod.mk.inj hrc
      subst hr hc
      rw [hbm]
      decide
    · exfalso
      have hlt := hfirst 0 0 h00 (first_cell_precedes (r, c) hrc)
      have hle := Score.le_trans (centre_scores_le r c h0) centre_corner_score
      have := Score.lt_of_le_of_lt hle hlt
      rw [Score.lt_irrefl] at this
      cases this

end Game

namespace Game

/-! ## `bestMove` on the positions play hands to it -/

end Game

/-! ## The claims -/

namespace Game

/-- C2: for every board and every player value `p` (in particular 1, the Human,
and 2, the Computer), `checkWin(p)` returns true if and only if one of the 8
lines (rows 0..2, columns 0..2, the main diagonal, the anti-diagonal) has all
three cells equal to `p`.  `checkWin` only reads the board: its embedding
returns the flag alone. -/
theorem checkWin_iff_line_marked (g : Game) (p : Int) :
    g.checkWin p = true ↔
      ∃ line ∈ winLines, ∀ rc ∈ line, g.board.get rc.1 rc.2 = p :=
  checkWin_iff_lines g p

/-- C6: a winning Human move ends the game without a Computer reply: when the
game is in progress, the Human is to move and marking the empty in-range cell
`(r, c)` with 1 gives the Human a line, the human-move step sets only that
cell to 1, sets `gameOver` and leaves `player` at 2. -/
theorem humanMove_winning (g : Game) (r c : Fin 3) (hover : g.gameOver = false)
    (hplayer : g.player = 1) (hempty : g.board.get r c = 0)
    (hwin : (g.markSquare r c 1).checkWin 1 = true) :
    g.humanMove (r : Int) (c : Int) =
      { board := g.board.set r c 1, player := 2, gameOver := true } := by
  obtain ⟨b, p, o⟩ := g
  simp only at hover hplayer hempty
  subst hover hplayer
  have hwin' : (⟨b.set r c 1, 1, false⟩ : Game).checkWin 1 = true := hwin
  have hw : wrap64 2 = 2 := by decide
  rw [humanMove_eq, clickCell_fin]
  simp [playCell, isSquareEmpty, hempty, markSquare, hwin', hw]

/-- C6, the scenario of the specification: Human at (0,0), (0,1), Computer at
(1,1), Human marks (0,2). -/
theorem humanMove_winning_witness :
    (⟨⟨1, 1, 0, 0, 2, 0, 0, 0, 0⟩, 1, false⟩ : Game).humanMove ((0 : Fin 3) : Nat) ((2 : Fin 3) : Nat)
      = { board := (⟨1, 1, 0, 0, 2, 0, 0, 0, 0⟩ : Board).set 0 2 1, player := 2,
          gameOver := true } :=
  humanMove_winning ⟨⟨1, 1, 0, 0, 2, 0, 0, 0, 0⟩, 1, false⟩ 0 2 rfl rfl (by decide) (by decide)

/-- C7: terminal states are absorbing: when `gameOver` is set, `Update` without
the restart key returns the state unchanged, whatever the click; so does the
human-move step at every cell. -/
theorem gameOver_absorbing (g : Game) (hover : g.gameOver = true) :
    (∀ inp : Input, inp.keyR = false → g.Update inp = g) ∧
      ∀ row col : Int, g.humanMove row col = g := by
  constructor
  · intro inp hk
    simp [Update, hover, hk]
  · intro row col
    simp [humanMove_eq, hover]

/-- C7 on the terminal state reached in the scenario of C6. -/
theorem gameOver_absorbing_witness :
    (∀ inp : Input, inp.keyR = false →
        (⟨⟨1, 1, 1, 0, 2, 0, 0, 0, 0⟩, 2, true⟩ : Game).Update inp
          = ⟨⟨1, 1, 1, 0, 2, 0, 0, 0, 0⟩, 2, true⟩) ∧
      ∀ row col : Int, (⟨⟨1, 1, 1, 0, 2, 0, 0, 0, 0⟩, 2, true⟩ : Game).humanMove row col
          = ⟨⟨1, 1, 1, 0, 2, 0, 0, 0, 0⟩, 2, true⟩ :=
  gameOver_absorbing ⟨⟨1, 1, 1, 0, 2, 0, 0, 0, 0⟩, 2, true⟩ rfl

/-- C8: malformed moves are inert: when the game is in progress and the
requested cell is out of range (row or column outside 0..2) or is not Empty, the
human-move step returns the state unchanged (board, player and gameOver), so
the Computer makes no move either. -/
theorem humanMove_malformed (g : Game) (row col : Int) (_hover : g.gameOver = false)
    (hbad : ¬ (0 ≤ row ∧ row < 3 ∧ 0 ≤ col ∧ col < 3) ∨
      ∃ r c : Fin 3, ((r : Nat) : Int) = row ∧ ((c : Nat) : Int) = col ∧
        g.board.get r c ≠ 0) :
    g.humanMove row col = g := by
  rw [humanMove_eq]
  split
  · rfl
  · rcases hbad with h | ⟨r, c, hr, hc, hne⟩
    · exact clickCell_out g row col h
    · rw [← hr, ← hc, clickCell_fin]
      simp [playCell, isSquareEmpty, hne]

/-- C8 on an occupied cell: (1,1) already holds the Computer's mark. -/
theorem humanMove_malformed_witness :
    (⟨⟨1, 0, 0, 0, 2, 0, 0, 0, 0⟩, 1, false⟩ : Game).humanMove 1 1
      = ⟨⟨1, 0, 0, 0, 2, 0, 0, 0, 0⟩, 1, false⟩ :=
  humanMove_malformed ⟨⟨1, 0, 0, 0, 2, 0, 0, 0, 0⟩, 1, false⟩ 1 1 rfl
    (Or.inr ⟨1, 1, rfl, rfl, by decide⟩)

/-- C9: from every `Game` state whatsoever, `restartGame` yields exactly the
state of `NewGame()`: all 9 cells 0, `player` 1, `gameOver` false. -/
theorem restartGame_eq_NewGame (g : Game) :
    g.restartGame = NewGame ∧
      (∀ r c, NewGame.board.get r c = 0) ∧ NewGame.player = 1 ∧ NewGame.gameOver = false := by
  refine ⟨rfl, ?_, rfl, rfl⟩
  decide

end Game

namespace Game

/-- C1: starting from `NewGame()` and applying any finite sequence of human-move
steps (any cell, accepted or rejected) and restarts, every state reached has
`checkWin(1)` false: the Human never gets a winning line. -/
theorem human_never_wins (g : Game) (h : Reachable g) : g.checkWin 1 = false :=
  (safe_of_reachable g h).1

/-- C1 on the state after the Human opens in the centre and then plays (0,1). -/
theorem human_never_wins_witness :
    Reachable ((NewGame.humanMove 1 1).humanMove 0 1) ∧
      ((NewGame.humanMove 1 1).humanMove 0 1).checkWin 1 = false :=
  ⟨Reachable.move _ 0 1 (Reachable.move _ 1 1 Reachable.init),
    human_never_wins _ (Reachable.move _ 0 1 (Reachable.move _ 1 1 Reachable.init))⟩

/-- C4: the search restores the state.  For every `Game`, depth and value of
`isMaximizing`, `minimax` returns (with every budget above the number of empty
cells) and leaves the whole `Game` as it found it; and `bestMove` either
returns false with the `Game` unchanged, or returns true with exactly one cell
changed, which was 0 and is now 2, and `player` and `gameOver` unchanged. -/
theorem search_restores_state (g : Game) (depth : Int) (isMaximizing : Bool) :
    (∀ fuel, countEmpty g.board < fuel →
        ∃ s, minimaxFuel fuel g depth isMaximizing = some (s, g)) ∧
      (g.minimax depth isMaximizing).2 = g ∧
      ((g.bestMove.1 = false ∧ g.bestMove.2 = g) ∨
        (g.bestMove.1 = true ∧ ∃ r c, g.board.get r c = 0 ∧ g.bestMove.2.board.get r c = 2 ∧
          (∀ r' c', (r', c') ≠ (r, c) → g.bestMove.2.board.get r' c' = g.board.get r' c') ∧
          g.bestMove.2.player = g.player ∧ g.bestMove.2.gameOver = g.gameOver)) := by
  refine ⟨fun fuel h => ⟨_, minimaxFuel_returns fuel g depth isMaximizing h⟩, ?_, ?_⟩
  · rw [minimax_eq]
  · rcases bestMove_cases g with ⟨hbm, _⟩ | ⟨r, c, hbm, h0, _, _, _⟩
    · left; rw [hbm]; exact ⟨rfl, rfl⟩
    · right
      rw [hbm]
      refine ⟨rfl, r, c, h0, ?_, ?_, rfl, rfl⟩
      · simp [markSquare, Board.get_set]
      · intro r' c' hne
        have : ¬ (r' = r ∧ c' = c) := fun e => hne (Prod.ext e.1 e.2)
        simp [markSquare, Board.get_set, this]

/-- C4 on `diagPosition`: with budget 6 the search returns and gives the
`Game` back. -/
theorem search_restores_state_witness :
    ∃ s, minimaxFuel 6 diagPosition 0 true = some (s, diagPosition) :=
  (search_restores_state diagPosition 0 true).1 6 (by decide)

/-- C5: move selection and tie-break.  Whenever `bestMove` returns true and
the cell `(r, c)` is the one it changed, then `(r, c)` was 0 and now holds 2,
its score `moveScore` (the result of `minimax(0, false)` on the board with the
cell set to 2) is the maximum over all empty cells, and every empty cell that
precedes `(r, c)` in row-major order has a strictly smaller score. -/
theorem bestMove_selects_first_max (g : Game) (r c : Fin 3)
    (htrue : g.bestMove.1 = true)
    (hmark : g.bestMove.2.board.get r c ≠ g.board.get r c) :
    g.board.get r c = 0 ∧ g.bestMove.2.board.get r c = 2 ∧
      (∀ r' c', g.board.get r' c' = 0 →
        Score.le (moveScore g r' c') (moveScore g r c) = true) ∧
      (∀ r' c', g.board.get r' c' = 0 → precedes (r', c') (r, c) →
        Score.lt (moveScore g r' c') (moveScore g r c) = true) := by
  rcases bestMove_cases g with ⟨hbm, _⟩ | ⟨r0, c0, hbm, h0, _, hmax, hfirst⟩
  · rw [hbm] at htrue; cases htrue
  · rw [hbm] at hmark
    simp only [markSquare, Board.get_set] at hmark
    have hrc : r = r0 ∧ c = c0 := by
      by_contra hne
      rw [if_neg hne] at hmark
      exact hmark rfl
    obtain ⟨hr, hc⟩ := hrc
    subst hr hc
    refine ⟨h0, ?_, hmax, hfirst⟩
    rw [hbm]
    simp [markSquare, Board.get_set]

/-- C5 on the position after the Human plays (0,2) on `diagPosition`: the
cell `bestMove` marks is (2,2). -/
theorem bestMove_selects_first_max_witness :
    (⟨⟨2, 1, 1, 1, 2, 0, 0, 0, 0⟩, 2, false⟩ : Game).board.get 2 2 = 0 ∧
      (⟨⟨2, 1, 1, 1, 2, 0, 0, 0, 0⟩, 2, false⟩ : Game).bestMove.2.board.get 2 2 = 2 ∧
      (∀ r' c', (⟨⟨2, 1, 1, 1, 2, 0, 0, 0, 0⟩, 2, false⟩ : Game).board.get r' c' = 0 →
        Score.le (moveScore ⟨⟨2, 1, 1, 1, 2, 0, 0, 0, 0⟩, 2, false⟩ r' c')
          (moveScore ⟨⟨2, 1, 1, 1, 2, 0, 0, 0, 0⟩, 2, false⟩ 2 2) = true) ∧
      (∀ r' c', (⟨⟨2, 1, 1, 1, 2, 0, 0, 0, 0⟩, 2, false⟩ : Game).board.get r' c' = 0 →
        precedes (r', c') (2, 2) →
        Score.lt (moveScore ⟨⟨2, 1, 1, 1, 2, 0, 0, 0, 0⟩, 2, false⟩ r' c')
          (moveScore ⟨⟨2, 1, 1, 1, 2, 0, 0, 0, 0⟩, 2, false⟩ 2 2) = true) :=
  bestMove_selects_first_max ⟨⟨2, 1, 1, 1, 2, 0, 0, 0, 0⟩, 2, false⟩ 2 2
    (by decide!) (by decide!)

/-- C10 as stated fails: after the Human plays (1,2) on `diagPosition`, the
Computer has marked (0,2), cell (2,2) is still 0, the game is not over and
`checkWin(2)` is false. -/
theorem diagPosition_not_won_after_1_2 :
    diagPosition.humanMove 1 2 = ⟨⟨2, 1, 2, 1, 2, 1, 0, 0, 0⟩, 1, false⟩ ∧
      (diagPosition.humanMove 1 2).board.get 2 2 = 0 ∧
      (diagPosition.humanMove 1 2).gameOver = false ∧
      (diagPosition.humanMove 1 2).checkWin 2 = false := by
  decide!

/-- C10 amended: on `diagPosition`, after a Human move to (0,2) or (2,0) the
Computer marks (2,2), completing the main diagonal, and the state is game over
with `checkWin(2)` true; after a Human move to (1,2) or (2,1) the Computer
marks (0,2), the first cell in row-major order whose score is plus infinity,
and the game is still in progress with `checkWin(2)` false. -/
theorem diagPosition_replies :
    (diagPosition.humanMove 0 2 = ⟨⟨2, 1, 1, 1, 2, 0, 0, 0, 2⟩, 1, true⟩ ∧
      (diagPosition.humanMove 0 2).checkWin 2 = true) ∧
    (diagPosition.humanMove 2 0 = ⟨⟨2, 1, 0, 1, 2, 0, 1, 0, 2⟩, 1, true⟩ ∧
      (diagPosition.humanMove 2 0).checkWin 2 = true) ∧
    (diagPosition.humanMove 1 2 = ⟨⟨2, 1, 2, 1, 2, 1, 0, 0, 0⟩, 1, false⟩ ∧
      (diagPosition.humanMove 1 2).checkWin 2 = false ∧
      moveScore ⟨⟨2, 1, 0, 1, 2, 1, 0, 0, 0⟩, 2, false⟩ 0 2 = Score.posInf) ∧
    (diagPosition.humanMove 2 1 = ⟨⟨2, 1, 2, 1, 2, 0, 0, 1, 0⟩, 1, false⟩ ∧
      (diagPosition.humanMove 2 1).checkWin 2 = false ∧
      moveScore ⟨⟨2, 1, 0, 1, 2, 0, 0, 1, 0⟩, 2, false⟩ 0 2 = Score.posInf) := by
  decide!

end Game

namespace Game

/-- C12 as stated fails: on `twoRowsPosition` row 0 is fully marked by the Human
(1), every cell is 0, 1 or 2, and `checkWin(2)` is true as well, because the
Computer fills row 1. -/
theorem twoRowsPosition_both_win :
    (∀ r c, twoRowsPosition.board.get r c = 0 ∨ twoRowsPosition.board.get r c = 1 ∨
        twoRowsPosition.board.get r c = 2) ∧
      [((0 : Fin 3), (0 : Fin 3)), (0, 1), (0, 2)] ∈ winLines ∧
      (∀ rc ∈ [((0 : Fin 3), (0 : Fin 3)), (0, 1), (0, 2)],
        twoRowsPosition.board.get rc.1 rc.2 = 1) ∧
      twoRowsPosition.checkWin 1 = true ∧ twoRowsPosition.checkWin (3 - 1) = true := by
  decide

/-- C12 amended: for every board, each of the 8 winning lines and each player
`p` in {1, 2}: if all three cells of the line hold `p`, then `checkWin(p)` is
true, and `checkWin(3 - p)` is true exactly when the other player fills a line
that shares no cell with this one; for the two diagonals there is no such
line, so there `checkWin(3 - p)` is false. -/
theorem checkWin_line_marked (g : Game) (line : List (Fin 3 × Fin 3)) (p : Int)
    (hline : line ∈ winLines) (hp : p = 1 ∨ p = 2)
    (hall : ∀ rc ∈ line, g.board.get rc.1 rc.2 = p) :
    g.checkWin p = true ∧
      (g.checkWin (3 - p) = true ↔
        ∃ other ∈ winLines, (∀ rc ∈ other, rc ∉ line) ∧
          ∀ rc ∈ other, g.board.get rc.1 rc.2 = 3 - p) ∧
      (line = [(0, 0), (1, 1), (2, 2)] ∨ line = [(0, 2), (1, 1), (2, 0)] →
        g.checkWin (3 - p) = false) := by
  have hne : p ≠ 3 - p := by rcases hp with h | h <;> subst h <;> decide
  have hiff : g.checkWin (3 - p) = true ↔
      ∃ other ∈ winLines, (∀ rc ∈ other, rc ∉ line) ∧
        ∀ rc ∈ other, g.board.get rc.1 rc.2 = 3 - p := by
    rw [checkWin_iff_lines]
    constructor
    · rintro ⟨other, ho, hoall⟩
      refine ⟨other, ho, ?_, hoall⟩
      intro rc hrc hrl
      exact hne ((hall rc hrl).symm.trans (hoall rc hrc))
    · rintro ⟨other, ho, _, hoall⟩
      exact ⟨other, ho, hoall⟩
  refine ⟨(checkWin_iff_lines g p).2 ⟨line, hline, hall⟩, hiff, ?_⟩
  intro hdiag
  cases hw : g.checkWin (3 - p) with
  | false => rfl
  | true =>
    obtain ⟨other, ho, hdis, _⟩ := hiff.1 hw
    exfalso
    have hmeet : ∀ other ∈ winLines,
        (∃ rc ∈ other, rc ∈ [((0 : Fin 3), (0 : Fin 3)), (1, 1), (2, 2)]) ∧
        (∃ rc ∈ other, rc ∈ [((0 : Fin 3), (2 : Fin 3)), (1, 1), (2, 0)]) := by decide
    rcases hdiag with h | h
    · obtain ⟨rc, hrc, hin⟩ := (hmeet other ho).1
      exact hdis rc hrc (h ▸ hin)
    · obtain ⟨rc, hrc, hin⟩ := (hmeet other ho).2
      exact hdis rc hrc (h ▸ hin)

/-- C12 amended, on the main diagonal of the final position of C10: the
Computer (2) fills it, `checkWin(2)` is true and `checkWin(1)` is false. -/
theorem checkWin_line_marked_witness :
    (⟨⟨2, 1, 1, 1, 2, 0, 0, 0, 2⟩, 1, true⟩ : Game).checkWin 2 = true ∧
      (⟨⟨2, 1, 1, 1, 2, 0, 0, 0, 2⟩, 1, true⟩ : Game).checkWin (3 - 2) = false :=
  ⟨(checkWin_line_marked ⟨⟨2, 1, 1, 1, 2, 0, 0, 0, 2⟩, 1, true⟩ [(0, 0), (1, 1), (2, 2)] 2
      (by decide) (Or.inr rfl) (by decide)).1,
    (checkWin_line_marked ⟨⟨2, 1, 1, 1, 2, 0, 0, 0, 2⟩, 1, true⟩ [(0, 0), (1, 1), (2, 2)] 2
      (by decide) (Or.inr rfl) (by decide)).2.2 (Or.inl rfl)⟩

/-- C13: the terminal base cases of `minimax` and their order.  For every
`Game`, depth and value of `isMaximizing`: if the Computer (2) has a line the
score is plus infinity (whether or not the Human has one too); otherwise if the
Human (1) has a line it is minus infinity; otherwise if no cell is 0 it is 0.
On every `Game` the score is one of minus infinity, 0, plus infinity and does
not depend on the depth argument. -/
theorem minimax_base_cases (g : Game) (depth : Int) (isMaximizing : Bool) :
    (g.checkWin 2 = true → (g.minimax depth isMaximizing).1 = Score.posInf) ∧
      (g.checkWin 2 = false → g.checkWin 1 = true →
        (g.minimax depth isMaximizing).1 = Score.negInf) ∧
      (g.checkWin 2 = false → g.checkWin 1 = false → g.isBoardFull = true →
        (g.minimax depth isMaximizing).1 = Score.fin 0) ∧
      isOutcome (g.minimax depth isMaximizing).1 ∧
      ∀ depth' : Int,
        (g.minimax depth' isMaximizing).1 = (g.minimax depth isMaximizing).1 := by
  have e : ∀ d : Int, (g.minimax d isMaximizing).1 = value g isMaximizing :=
    fun d => by rw [minimax_eq]
  refine ⟨?_, ?_, ?_, ?_, fun d => by rw [e, e]⟩
  · intro h2
    rw [e, value_unfold, h2]; rfl
  · intro h2 h1
    rw [e, value_unfold, h2, h1]; rfl
  · intro h2 h1 hf
    rw [e, value_unfold, h2, h1, hf]; rfl
  · rw [e]; exact valueFuel_isOutcome _ _ _

/-- C13 on a board where both players have a line (`twoRowsPosition`): the
Computer's line is tested first, so the score is plus infinity. -/
theorem minimax_base_cases_witness :
    (twoRowsPosition.minimax 0 false).1 = Score.posInf :=
  (minimax_base_cases twoRowsPosition 0 false).1 (by decide)

/-- C18: `minimax` terminates on every board.  A board has at most 9 empty
cells; every recursive call is made on a board with exactly one empty cell
fewer (the cell written is 0 and the mark is not); so `minimax` returns with
every budget above the number of empty cells, in particular with budget 10 on
every board, and each call `bestMove` makes for an empty cell returns within
the number of empty cells of the board `bestMove` was given. -/
theorem minimax_terminates (g : Game) (depth : Int) (isMaximizing : Bool) :
    countEmpty g.board ≤ 9 ∧
      (∀ (r c : Fin 3) (mark : Int), g.board.get r c = 0 → mark ≠ 0 →
        countEmpty (g.board.set r c mark) + 1 = countEmpty g.board) ∧
      (∀ fuel, countEmpty g.board < fuel →
        ∃ s, minimaxFuel fuel g depth isMaximizing = some (s, g)) ∧
      (∃ s, minimaxFuel 10 g depth isMaximizing = some (s, g)) ∧
      (∀ r c : Fin 3, g.board.get r c = 0 →
        ∃ s, minimaxFuel (countEmpty g.board)
            { g with board := g.board.set r c 2 } 0 false
          = some (s, { g with board := g.board.set r c 2 })) := by
  have h9 := countEmpty_le g.board
  refine ⟨h9, fun r c mark h0 hm => countEmpty_set g.board r c mark h0 hm,
    fun fuel h => ⟨_, minimaxFuel_returns fuel g depth isMaximizing h⟩,
    ⟨_, minimaxFuel_returns 10 g depth isMaximizing (by omega)⟩, ?_⟩
  intro r c h0
  have hc := countEmpty_set g.board r c 2 h0 (by decide)
  exact ⟨_, minimaxFuel_returns _ _ 0 false
    (by show countEmpty (g.board.set r c 2) < countEmpty g.board; omega)⟩

/-- C18 on the empty board of `NewGame()`: the first call `bestMove` would make,
for cell (0,0), returns with budget 9. -/
theorem minimax_terminates_witness :
    ∃ s, minimaxFuel (countEmpty NewGame.board)
        { NewGame with board := NewGame.board.set 0 0 2 } 0 false
      = some (s, { NewGame with board := NewGame.board.set 0 0 2 }) :=
  (minimax_terminates NewGame 0 true).2.2.2.2 0 0 (by decide)

/-- C19, the code at the failing input: on `lastCellPosition` a click at the
cursor position (-50, -50), which is off the screen, is translated to cell
(0,0) because Go's division truncates towards zero; `Update` marks the cell and
ends the game. -/
theorem update_accepts_offscreen_click :
    ¬ (0 ≤ (-50 : Int) ∧ (-50 : Int) < 300) ∧
      Int.tdiv (-50) squareSize = 0 ∧
      lastCellPosition.Update ⟨false, true, -50, -50⟩
        = ⟨⟨1, 1, 2, 2, 2, 1, 1, 2, 1⟩, 2, true⟩ ∧
      lastCellPosition.Update ⟨false, true, -50, -50⟩ ≠ lastCellPosition := by
  decide!

/-- C20: the engine does not prefer a faster win.  On `slowWinPosition` neither
player has a line, the Computer is to move and the empty cell (2,2) would
complete the Computer's diagonal at once; `bestMove` marks (0,2) instead, an
earlier cell in row-major order with the same score plus infinity, and
`checkWin(2)` is still false after the move. -/
theorem bestMove_skips_immediate_win :
    ∃ g : Game, g.checkWin 1 = false ∧ g.checkWin 2 = false ∧ g.player = 2 ∧
      g.gameOver = false ∧
      ∃ win first : Fin 3 × Fin 3,
        g.board.get win.1 win.2 = 0 ∧ (g.markSquare win.1 win.2 2).checkWin 2 = true ∧
        g.board.get first.1 first.2 = 0 ∧ first ≠ win ∧ precedes first win ∧
        moveScore g first.1 first.2 = Score.posInf ∧
        moveScore g win.1 win.2 = Score.posInf ∧
        g.bestMove = (true, g.markSquare first.1 first.2 2) ∧
        g.bestMove.2.checkWin 2 = false := by
  refine ⟨slowWinPosition, by decide, by decide, rfl, rfl, (2, 2), (0, 2), by decide,
    by decide, by decide, by decide, Or.inl (by decide), by decide!, by decide!,
    by decide!, by decide!⟩

end Game

namespace Game

/-- C14: the game-over flag is exactly the terminal status derived from the
board: in every state reachable from `NewGame()` by human-move steps and
restarts, `gameOver` is true if and only if `checkWin(1)` or `checkWin(2)` or
`isBoardFull()` holds; in particular a step that leaves the board full ends
with `gameOver` true. -/
theorem gameOver_iff_terminal (g : Game) (h : Reachable g) :
    (g.gameOver = true ↔
        (g.checkWin 1 = true ∨ g.checkWin 2 = true ∨ g.isBoardFull = true)) ∧
      ∀ row col : Int, (g.humanMove row col).isBoardFull = true →
        (g.humanMove row col).gameOver = true :=
  ⟨(settled_of_reachable g h).1, fun row col hf =>
    (settled_of_reachable _ (Reachable.move g row col h)).1.2 (Or.inr (Or.inr hf))⟩

/-- C14 on the state after the Human opens in the centre. -/
theorem gameOver_iff_terminal_witness :
    Reachable (NewGame.humanMove 1 1) ∧
      ((NewGame.humanMove 1 1).gameOver = true ↔
        ((NewGame.humanMove 1 1).checkWin 1 = true ∨
          (NewGame.humanMove 1 1).checkWin 2 = true ∨
          (NewGame.humanMove 1 1).isBoardFull = true)) :=
  ⟨Reachable.move _ 1 1 Reachable.init,
    (gameOver_iff_terminal _ (Reachable.move _ 1 1 Reachable.init)).1⟩

/-- C15: the Human moves next whenever the game is in progress: in every
reachable state with `gameOver` false, `player` is 1, so a click on an empty
in-range cell leaves the Human's mark 1 on that cell. -/
theorem inProgress_human_to_move (g : Game) (h : Reachable g)
    (hover : g.gameOver = false) :
    g.player = 1 ∧
      ∀ r c : Fin 3, g.board.get r c = 0 →
        (g.humanMove ((r : Nat) : Int) ((c : Nat) : Int)).board.get r c = 1 := by
  have hp : g.player = 1 := ((safe_of_reachable g h).2 hover).1
  refine ⟨hp, ?_⟩
  intro r c hempty
  rw [humanMove_eq, hover, clickCell_fin]
  simp only [Bool.false_eq_true, if_false]
  obtain ⟨b, p, o⟩ := g
  simp only at hp hover hempty
  subst hp hover
  exact (playCell_keeps b 1 r c hempty).2 (by decide)

/-- C15 on `NewGame()`. -/
theorem inProgress_human_to_move_witness :
    NewGame.player = 1 ∧
      ∀ r c : Fin 3, NewGame.board.get r c = 0 →
        (NewGame.humanMove ((r : Nat) : Int) ((c : Nat) : Int)).board.get r c = 1 :=
  inProgress_human_to_move NewGame Reachable.init rfl

/-- C16: mark balance: in every reachable state every cell is 0, 1 or 2 and
the number of Human cells is the number of Computer cells or one more. -/
theorem mark_balance (g : Game) (h : Reachable g) :
    (∀ r c, g.board.get r c = 0 ∨ g.board.get r c = 1 ∨ g.board.get r c = 2) ∧
      (countMark g.board 1 = countMark g.board 2 ∨
        countMark g.board 1 = countMark g.board 2 + 1) :=
  ⟨(settled_of_reachable g h).2.1, (settled_of_reachable g h).2.2.2⟩

/-- C16 on the state after the Human opens in the centre and then plays (0,1). -/
theorem mark_balance_witness :
    Reachable ((NewGame.humanMove 1 1).humanMove 0 1) ∧
      (countMark ((NewGame.humanMove 1 1).humanMove 0 1).board 1
          = countMark ((NewGame.humanMove 1 1).humanMove 0 1).board 2 ∨
        countMark ((NewGame.humanMove 1 1).humanMove 0 1).board 1
          = countMark ((NewGame.humanMove 1 1).humanMove 0 1).board 2 + 1) :=
  ⟨Reachable.move _ 0 1 (Reachable.move _ 1 1 Reachable.init),
    (mark_balance _ (Reachable.move _ 0 1 (Reachable.move _ 1 1 Reachable.init))).2⟩

/-- C17: marks are permanent: for every state and every requested cell, every
cell that is not 0 before the human-move step holds the same value after it
(the Human's mark and the Computer's reply are written only to cells that were
0); `restartGame` clears every cell. -/
theorem marks_permanent (g : Game) (row col : Int) :
    (∀ r' c', g.board.get r' c' ≠ 0 →
        (g.humanMove row col).board.get r' c' = g.board.get r' c') ∧
      ∀ r' c', g.restartGame.board.get r' c' = 0 := by
  have hclear : ∀ r' c' : Fin 3, Board.empty.get r' c' = 0 := by decide
  refine ⟨?_, fun r' c' => hclear r' c'⟩
  intro r' c' hne
  rw [humanMove_eq]
  by_cases hover : g.gameOver = true
  · simp [hover]
  · have hover' : g.gameOver = false := by simpa using hover
    simp only [hover', Bool.false_eq_true, if_false]
    rcases cell_cases row col with hout | ⟨r, c, hr, hc⟩
    · rw [clickCell_out g row col hout]
    · rw [← hr, ← hc, clickCell_fin]
      by_cases hempty : g.board.get r c = 0
      · obtain ⟨b, p, o⟩ := g
        simp only at hover' hempty hne
        subst hover'
        exact (playCell_keeps b p r c hempty).1 r' c' hne
      · have : g.playCell r c = g := by simp [playCell, isSquareEmpty, hempty]
        rw [this]

/-- C17 on `lastCellPosition`: the Human takes the last cell (0,0); cell (0,1)
keeps its mark. -/
theorem marks_permanent_witness :
    (lastCellPosition.humanMove 0 0).board.get 0 1 = lastCellPosition.board.get 0 1 :=
  (marks_permanent lastCellPosition 0 0).1 0 1 (by decide)

end Game

namespace Game

/-- C11: the opening reply: applying the human-move step with cell (1,1) to
`NewGame()` yields the state whose board has the Human's 1 at (1,1), the
Computer's 2 at the corner (0,0) and every other cell 0, with `gameOver` false
and `player` 1. -/
theorem opening_reply :
    NewGame.humanMove 1 1 = ⟨⟨2, 0, 0, 0, 1, 0, 0, 0, 0⟩, 1, false⟩ := by
  have hover : NewGame.gameOver = false := rfl
  have hclick : NewGame.clickCell 1 1 = playCell ⟨Board.empty, 1, false⟩ 1 1 :=
    clickCell_fin NewGame 1 1
  rw [humanMove_eq, hover]
  simp only [Bool.false_eq_true, if_false]
  rw [hclick]
  have hg3 : (⟨Board.empty.set 1 1 1, wrap64 (3 - 1), false⟩ : Game) = centrePosition := by
    decide
  rcases playCell_shape Board.empty 1 1 1 (by decide) with ⟨hwin, _⟩ | ⟨_, hbm, _⟩ |
    ⟨_, r2, c2, _, hbm, hres⟩
  · exact absurd hwin (by decide)
  · rw [hg3, bestMove_centrePosition] at hbm
    cases hbm
  · rw [hg3, bestMove_centrePosition] at hbm
    have hb : (Board.empty.set 1 1 1).set r2 c2 2 = ⟨2, 0, 0, 0, 1, 0, 0, 0, 0⟩ := by
      have := congrArg (fun x : Bool × Game => x.2.board) hbm
      exact this.symm
    rw [hres, hb]
    decide

end Game

namespace Game

end Game

end TicTacToe
